import Mathlib

/-!
# Verification of the crawler's frontier scheduler, graph model and exporters

A shallow embedding of the crawler repository: the WHATWG-style URL
operations (`normalizeUrl`, `resolveHref`), the per-page merge step of
`Crawler.crawl` (navigate-edge recording, same-origin filtering, synthetic
transition/option nodes, self-loop suppression), the layered BFS loop with
bounded page/depth budgets, and the `toDot` exporter.  Browser interaction
(the `visit` call, i.e. `Renderer.renderAndRun` + `Extractor`) is modelled
as a pure oracle from requested URLs to visit outcomes; a failed promise is
the oracle returning `none`.
-/

namespace Crawler

/-! ## URL model

A simplified embedding of the WHATWG `URL` object as used by the source:
`new URL(raw)` (absolute parse), `u.hash = ""`, the `pathname` getter and
setter, `u.toString()`, `u.origin`, and `new URL(href, base)`.  Hosts are
kept verbatim (no case folding, ports or percent-encoding) and paths are
kept as raw strings (no dot-segment removal); the special-scheme rule that
an empty path serializes as the root path `/` is modelled, because the
source's trailing-slash normalization depends on it. -/

structure Url where
  scheme : String
  host : String
  path : String
  query : String
  fragment : String
deriving Repr, DecidableEq

/-- Embeds `new URL(raw)` for absolute URLs of the form
`scheme://host[/path][?query][#fragment]`; returns `none` where the
constructor would throw. -/
def parseUrlChars (l : List Char) : Option Url :=
  let scheme := l.takeWhile (fun c => c != ':')
  let rest := l.dropWhile (fun c => c != ':')
  match rest with
  | ':' :: '/' :: '/' :: r =>
    if scheme.isEmpty || !scheme.all Char.isAlpha then none
    else
      let host := r.takeWhile (fun c => c != '/' && c != '?' && c != '#')
      let r2 := r.dropWhile (fun c => c != '/' && c != '?' && c != '#')
      if host.isEmpty then none
      else
        let path := r2.takeWhile (fun c => c != '?' && c != '#')
        let r3 := r2.dropWhile (fun c => c != '?' && c != '#')
        let query := r3.takeWhile (fun c => c != '#')
        let fragment := r3.dropWhile (fun c => c != '#')
        some { scheme := ⟨scheme⟩, host := ⟨host⟩,
               path := if path.isEmpty then "/" else ⟨path⟩,
               query := ⟨query⟩, fragment := ⟨fragment⟩ }
  | _ => none

def parseUrl (s : String) : Option Url := parseUrlChars s.data

/-- Embeds `u.toString()`. -/
def Url.toStr (u : Url) : String :=
  u.scheme ++ "://" ++ u.host ++ u.path ++ u.query ++ u.fragment

/-- Embeds `u.origin`: a tuple origin for the special schemes, the literal
string `"null"` (its serialization) otherwise. -/
def Url.origin (u : Url) : String :=
  if u.scheme = "http" || u.scheme = "https" || u.scheme = "ws" ||
     u.scheme = "wss" || u.scheme = "ftp" then
    u.scheme ++ "://" ++ u.host
  else "null"

/-- Embeds `pathname.endsWith("/")` on the character list of the path. -/
def endsWithChar (l : List Char) (c : Char) : Bool := l.getLast? == some c

/-- Embeds `pathname.replace(/\/+$/, "")`: remove the maximal run of
trailing slashes. -/
def dropTrailingSlashes (l : List Char) : List Char :=
  (l.reverse.dropWhile (fun c => c == '/')).reverse

/-- Embeds the WHATWG `pathname` setter on a special-scheme URL: parsing an
empty string in path-start state leaves the single empty segment, which the
getter serializes as the root path `/`. -/
def Url.setPathname (u : Url) (p : String) : Url :=
  { u with path := if p.data.isEmpty then "/" else p }

/-- Embeds `normalizeUrl` (renderer.ts / crawler.ts): strip the fragment,
then strip trailing slashes from every path other than the root path. -/
def normalizeUrl (raw : String) : String :=
  match parseUrl raw with
  | none => raw
  | some u0 =>
    let u1 : Url := { u0 with fragment := "" }
    let u2 : Url :=
      if u1.path != "/" && endsWithChar u1.path.data '/' then
        u1.setPathname ⟨dropTrailingSlashes u1.path.data⟩
      else u1
    u2.toStr

example : normalizeUrl "https://a.com/docs/#frag" = "https://a.com/docs" := by decide
example : normalizeUrl "https://a.com//" = "https://a.com/" := by decide
example : normalizeUrl "https://a.com" = "https://a.com/" := by decide
example : normalizeUrl "not a url" = "not a url" := by decide
example : normalizeUrl "https://a.com/x/?q=1#f" = "https://a.com/x?q=1" := by decide

/-- The fragment-strip / trailing-slash-strip step of `normalizeUrl` on an
already-parsed URL (the body of its `some` branch). -/
def normalizeStep (u0 : Url) : Url :=
  let u1 : Url := { u0 with fragment := "" }
  if u1.path != "/" && endsWithChar u1.path.data '/' then
    u1.setPathname ⟨dropTrailingSlashes u1.path.data⟩
  else u1

theorem normalizeUrl_eq_step {s : String} {u : Url} (h : parseUrl s = some u) :
    normalizeUrl s = (normalizeStep u).toStr := by
  simp only [normalizeUrl, normalizeStep, h]

theorem normalizeUrl_eq_raw {s : String} (h : parseUrl s = none) :
    normalizeUrl s = s := by
  simp only [normalizeUrl, h]

/-! ### List splitting lemmas -/

theorem takeWhile_all {α} {p : α → Bool} : ∀ {l : List α},
    (∀ a ∈ l, p a = true) → l.takeWhile p = l
  | [], _ => rfl
  | a :: l, h => by
    simp only [List.takeWhile_cons, h a (List.mem_cons_self a l), if_true]
    exact congrArg (a :: ·) (takeWhile_all fun b hb => h b (List.mem_cons_of_mem a hb))

theorem dropWhile_all {α} {p : α → Bool} : ∀ {l : List α},
    (∀ a ∈ l, p a = true) → l.dropWhile p = []
  | [], _ => rfl
  | a :: l, h => by
    simp only [List.dropWhile_cons, h a (List.mem_cons_self a l), if_true]
    exact dropWhile_all fun b hb => h b (List.mem_cons_of_mem a hb)

theorem takeWhile_append_stop {α} {p : α → Bool} {c : α} (l₂ : List α)
    (hc : p c = false) : ∀ {l₁ : List α}, (∀ a ∈ l₁, p a = true) →
    (l₁ ++ c :: l₂).takeWhile p = l₁
  | [], _ => by simp [List.takeWhile_cons, hc]
  | a :: l₁, h => by
    simp only [List.cons_append, List.takeWhile_cons,
      h a (List.mem_cons_self a l₁), if_true]
    exact congrArg (a :: ·)
      (takeWhile_append_stop l₂ hc fun b hb => h b (List.mem_cons_of_mem a hb))

theorem dropWhile_append_stop {α} {p : α → Bool} {c : α} (l₂ : List α)
    (hc : p c = false) : ∀ {l₁ : List α}, (∀ a ∈ l₁, p a = true) →
    (l₁ ++ c :: l₂).dropWhile p = c :: l₂
  | [], _ => by simp [List.dropWhile_cons, hc]
  | a :: l₁, h => by
    simp only [List.cons_append, List.dropWhile_cons,
      h a (List.mem_cons_self a l₁), if_true]
    exact dropWhile_append_stop l₂ hc fun b hb => h b (List.mem_cons_of_mem a hb)

theorem head?_dropWhile {α} {p : α → Bool} : ∀ {l : List α} {a : α} {t : List α},
    l.dropWhile p = a :: t → p a = false
  | [], _, _, h => by simp at h
  | b :: l, a, t, h => by
    by_cases hb : p b = true
    · rw [List.dropWhile_cons, if_pos hb] at h
      exact head?_dropWhile h
    · rw [List.dropWhile_cons, if_neg hb] at h
      cases h
      exact Bool.eq_false_iff.mpr hb

/-! ### Facts about `dropTrailingSlashes` -/

theorem dropTrailingSlashes_restore (l : List Char) :
    dropTrailingSlashes l ++ (l.reverse.takeWhile (fun c => c == '/')).reverse = l := by
  have h := List.takeWhile_append_dropWhile (fun c : Char => c == '/') l.reverse
  rw [dropTrailingSlashes, ← List.reverse_append, h, List.reverse_reverse]

theorem dropTrailingSlashes_mem {l : List Char} {a : Char}
    (h : a ∈ dropTrailingSlashes l) : a ∈ l := by
  have hr := dropTrailingSlashes_restore l
  rw [← hr]
  exact List.mem_append_left _ h

theorem dropTrailingSlashes_head {l : List Char}
    (h : dropTrailingSlashes l ≠ []) : (dropTrailingSlashes l).head? = l.head? := by
  have hr := dropTrailingSlashes_restore l
  conv_rhs => rw [← hr]
  cases hd : dropTrailingSlashes l with
  | nil => exact absurd hd h
  | cons a t => simp [hd]

theorem dropTrailingSlashes_getLast {l : List Char} {a : Char} {t : List Char}
    (h : dropTrailingSlashes l = a :: t) : (a :: t).getLast? ≠ some '/' := by
  have hrev : l.reverse.dropWhile (fun c => c == '/') = (a :: t).reverse := by
    have := congrArg List.reverse h
    simpa [dropTrailingSlashes] using this
  cases hrr : (a :: t).reverse with
  | nil => simp at hrr
  | cons b s =>
    rw [hrr] at hrev
    have hb : (b == '/') = false :=
      head?_dropWhile (p := fun c => c == '/') hrev
    have : (a :: t).getLast? = some b := by
      rw [← List.head?_reverse, hrr]; rfl
    rw [this]
    intro hcon
    rw [Option.some_inj] at hcon
    subst hcon
    simp at hb

/-! ### Well-formed URLs and the parse/serialize round trip -/

/-- The shape invariant of every URL produced by `parseUrlChars`. -/
def Url.WF (u : Url) : Prop :=
  u.scheme.data ≠ [] ∧ u.scheme.data.all Char.isAlpha = true ∧
  u.host.data ≠ [] ∧
  (∀ c ∈ u.host.data, (c != '/' && c != '?' && c != '#') = true) ∧
  u.path.data.head? = some '/' ∧
  (∀ c ∈ u.path.data, (c != '?' && c != '#') = true) ∧
  (u.query.data = [] ∨ u.query.data.head? = some '?') ∧
  (∀ c ∈ u.query.data, (c != '#') = true) ∧
  (u.fragment.data = [] ∨ u.fragment.data.head? = some '#')

theorem ne_colon_of_isAlpha {c : Char} (h : c.isAlpha = true) : (c != ':') = true := by
  rcases eq_or_ne c ':' with rfl | hne
  · exact absurd h (by decide)
  · simp [bne_iff_ne, hne]

theorem takeWhile_cons_head {α} {p : α → Bool} {l : List α} {a : α} {t : List α}
    (h : l.takeWhile p = a :: t) : l.head? = some a ∧ p a = true := by
  cases l with
  | nil => simp at h
  | cons b l =>
    rw [List.takeWhile_cons] at h
    by_cases hb : p b = true
    · rw [if_pos hb] at h
      cases h
      exact ⟨rfl, hb⟩
    · rw [if_neg hb] at h
      cases h

theorem parse_wf {l : List Char} {u : Url} (h : parseUrlChars l = some u) : u.WF := by
  simp only [parseUrlChars] at h
  split at h
  case h_2 => exact absurd h (by simp)
  case h_1 r heq =>
    by_cases h1 : ((l.takeWhile fun c => c != ':').isEmpty ||
        !(l.takeWhile fun c => c != ':').all Char.isAlpha) = true
    · rw [if_pos h1] at h; exact absurd h (by simp)
    rw [if_neg h1] at h
    by_cases h2 : (r.takeWhile fun c => c != '/' && c != '?' && c != '#').isEmpty = true
    · rw [if_pos h2] at h; exact absurd h (by simp)
    rw [if_neg h2] at h
    rw [Option.some_inj] at h
    subst h
    simp only [Url.WF]
    simp only [Bool.or_eq_true, Bool.not_eq_true', not_or, Bool.not_eq_false] at h1
    obtain ⟨hs1, hs2⟩ := h1
    refine ⟨?_, hs2, ?_, ?_, ?_, ?_, ?_, ?_, ?_⟩
    · simpa [List.isEmpty_iff] using hs1
    · simpa [List.isEmpty_iff] using h2
    · exact fun c hc =>
        List.mem_takeWhile_imp (p := fun c => c != '/' && c != '?' && c != '#') hc
    · -- the path head is '/'
      by_cases hp : (((r.dropWhile fun c => c != '/' && c != '?' && c != '#').takeWhile
          fun c => c != '?' && c != '#')).isEmpty = true
      · simp only [hp, if_pos]; rfl
      · simp only [hp, if_neg, Bool.false_eq_true, not_false_iff]
        simp only [List.isEmpty_iff] at hp
        cases hpath : ((r.dropWhile fun c => c != '/' && c != '?' && c != '#').takeWhile
            fun c => c != '?' && c != '#') with
        | nil => exact absurd hpath hp
        | cons a t =>
          obtain ⟨hhead, hpa⟩ := takeWhile_cons_head hpath
          cases hdrop : (r.dropWhile fun c => c != '/' && c != '?' && c != '#') with
          | nil => rw [hdrop] at hhead; simp at hhead
          | cons b s =>
            rw [hdrop] at hhead
            simp only [List.head?_cons, Option.some_inj] at hhead
            subst hhead
            have hb := head?_dropWhile (p := fun c => c != '/' && c != '?' && c != '#') hdrop
            simp only [Bool.and_eq_false_iff, bne_eq_false_iff_eq] at hb
            simp only [Bool.and_eq_true, bne_iff_ne] at hpa
            rcases hb with (hb | hb) | hb
            · simp [hpath, hb]
            · exact absurd hb hpa.1
            · exact absurd hb hpa.2
    · intro c hc
      by_cases hp : (((r.dropWhile fun c => c != '/' && c != '?' && c != '#').takeWhile
          fun c => c != '?' && c != '#')).isEmpty = true
      · simp only [hp, if_pos] at hc
        rcases List.mem_singleton.mp hc with rfl
        decide
      · simp only [hp, if_neg, Bool.false_eq_true, not_false_iff] at hc
        exact List.mem_takeWhile_imp (p := fun c => c != '?' && c != '#') hc
    · -- the query is empty or starts with '?'
      cases hq : ((r.dropWhile fun c => c != '/' && c != '?' && c != '#').dropWhile
          fun c => c != '?' && c != '#').takeWhile (fun c => c != '#') with
      | nil => left; rfl
      | cons a t =>
        right
        obtain ⟨hhead, hqa⟩ := takeWhile_cons_head hq
        cases hdrop : ((r.dropWhile fun c => c != '/' && c != '?' && c != '#').dropWhile
            fun c => c != '?' && c != '#') with
        | nil => rw [hdrop] at hhead; simp at hhead
        | cons b s =>
          rw [hdrop] at hhead
          simp only [List.head?_cons, Option.some_inj] at hhead
          subst hhead
          have hb := head?_dropWhile (p := fun c => c != '?' && c != '#') hdrop
          simp only [Bool.and_eq_false_iff, bne_eq_false_iff_eq] at hb
          simp only [bne_iff_ne] at hqa
          rcases hb with hb | hb
          · simp [hq, hb]
          · exact absurd hb hqa
    · exact fun c hc => List.mem_takeWhile_imp (p := fun c => c != '#') hc
    · -- the fragment is empty or starts with '#'
      cases hf : ((r.dropWhile fun c => c != '/' && c != '?' && c != '#').dropWhile
          fun c => c != '?' && c != '#').dropWhile (fun c => c != '#') with
      | nil => left; rfl
      | cons a t =>
        right
        have ha := head?_dropWhile (p := fun c => c != '#') hf
        simp only [bne_eq_false_iff_eq] at ha
        simp [hf, ha]

theorem sep_data : ("://" : String).data = [':', '/', '/'] := rfl

theorem toStr_data (u : Url) :
    u.toStr.data = u.scheme.data ++ ':' :: '/' :: '/' ::
      (u.host.data ++ (u.path.data ++ (u.query.data ++ u.fragment.data))) := by
  simp [Url.toStr, String.data_append, sep_data, List.append_assoc]

theorem takeWhile_append_gen {α} {p : α → Bool} {l₁ l₂ : List α}
    (h : ∀ a ∈ l₁, p a = true)
    (h2 : l₂ = [] ∨ ∃ c t, l₂ = c :: t ∧ p c = false) :
    (l₁ ++ l₂).takeWhile p = l₁ ∧ (l₁ ++ l₂).dropWhile p = l₂ := by
  rcases h2 with rfl | ⟨c, t, rfl, hc⟩
  · rw [List.append_nil]
    exact ⟨takeWhile_all h, by rw [dropWhile_all h]⟩
  · exact ⟨takeWhile_append_stop _ hc h, dropWhile_append_stop _ hc h⟩

theorem parseUrlChars_split (S H P2 Q F : List Char)
    (hs1 : S ≠ []) (hs2 : S.all Char.isAlpha = true)
    (hh1 : H ≠ []) (hh2 : ∀ c ∈ H, (c != '/' && c != '?' && c != '#') = true)
    (hp2 : ∀ c ∈ '/' :: P2, (c != '?' && c != '#') = true)
    (hq1 : Q = [] ∨ Q.head? = some '?') (hq2 : ∀ c ∈ Q, (c != '#') = true)
    (hf1 : F = [] ∨ F.head? = some '#') :
    parseUrlChars (S ++ ':' :: '/' :: '/' :: (H ++ ('/' :: P2 ++ (Q ++ F)))) =
      some ⟨⟨S⟩, ⟨H⟩, ⟨'/' :: P2⟩, ⟨Q⟩, ⟨F⟩⟩ := by
  have hcolon : ∀ a ∈ S, (a != ':') = true := fun a ha =>
    ne_colon_of_isAlpha (List.all_eq_true.mp hs2 a ha)
  simp only [parseUrlChars]
  rw [takeWhile_append_stop _ (by decide) hcolon,
      dropWhile_append_stop _ (by decide) hcolon]
  have hscheme : (S.isEmpty || !S.all Char.isAlpha) = false := by
    simp [List.isEmpty_iff, hs1, hs2]
  split
  case h_2 x hne =>
    exact absurd rfl (hne _)
  case h_1 r heq =>
    obtain rfl : H ++ ('/' :: P2 ++ (Q ++ F)) = r := by
      injection heq with _ h1
      injection h1 with _ h2
      injection h2 with _ h3
    have hFtail : F = [] ∨ ∃ c t, F = c :: t ∧ (c != '#') = false := by
      rcases hf1 with rfl | hfh
      · exact Or.inl rfl
      · cases F with
        | nil => simp at hfh
        | cons b Ft =>
          simp only [List.head?_cons, Option.some_inj] at hfh
          exact Or.inr ⟨b, Ft, by rw [hfh], by rw [hfh]; decide⟩
    have hQFtail : Q ++ F = [] ∨
        ∃ c t, Q ++ F = c :: t ∧ (c != '?' && c != '#') = false := by
      rcases hq1 with rfl | hqh
      · rcases hFtail with rfl | ⟨c, t, rfl, hc⟩
        · exact Or.inl rfl
        · refine Or.inr ⟨c, t, rfl, ?_⟩
          simp only [bne_eq_false_iff_eq] at hc
          simp [hc]
      · cases Q with
        | nil => simp at hqh
        | cons a Qt =>
          simp only [List.head?_cons, Option.some_inj] at hqh
          subst hqh
          exact Or.inr ⟨'?', Qt ++ F, by rw [List.cons_append], by decide⟩
    have hpath := @takeWhile_append_gen Char (fun c => c != '?' && c != '#')
      ('/' :: P2) (Q ++ F) hp2 hQFtail
    have hquery := @takeWhile_append_gen Char (fun c => c != '#') Q F hq2 hFtail
    rw [List.cons_append]
    rw [takeWhile_append_stop _ (by decide) hh2,
        dropWhile_append_stop _ (by decide) hh2]
    rw [show ('/' :: (P2 ++ (Q ++ F)) : List Char) = '/' :: P2 ++ (Q ++ F) from
      (List.cons_append '/' P2 (Q ++ F)).symm]
    rw [hpath.1, hpath.2, hquery.1, hquery.2]
    simp [hscheme, List.isEmpty_iff, hh1]

/-- Serializing a well-formed URL and parsing it back is the identity:
normalized output re-parses to the same components. -/
theorem parse_toStr {u : Url} (h : u.WF) : parseUrl u.toStr = some u := by
  obtain ⟨hs1, hs2, hh1, hh2, hp1, hp2, hq1, hq2, hf1⟩ := h
  obtain ⟨Pt, hP⟩ : ∃ Pt, u.path.data = '/' :: Pt := by
    cases hpd : u.path.data with
    | nil => rw [hpd] at hp1; simp at hp1
    | cons a t =>
      rw [hpd] at hp1
      simp only [List.head?_cons, Option.some_inj] at hp1
      exact ⟨t, by rw [hp1]⟩
  have hq1' : u.query.data = [] ∨ u.query.data.head? = some '?' := hq1
  have hf1' : u.fragment.data = [] ∨ u.fragment.data.head? = some '#' := hf1
  rw [parseUrl, toStr_data, hP]
  have := parseUrlChars_split u.scheme.data u.host.data Pt u.query.data
    u.fragment.data hs1 hs2 hh1 hh2 (hP ▸ hp2) hq1' hq2 hf1'
  rw [List.cons_append] at this ⊢
  rw [this, ← hP]

theorem normalizeStep_fragment (u : Url) : (normalizeStep u).fragment = "" := by
  rw [normalizeStep]
  split <;> rfl

theorem normalizeStep_wf {u : Url} (h : u.WF) : (normalizeStep u).WF := by
  obtain ⟨us, uh, up, uq, uf⟩ := u
  obtain ⟨hs1, hs2, hh1, hh2, hp1, hp2, hq1, hq2, _⟩ := h
  dsimp only at hs1 hs2 hh1 hh2 hp1 hp2 hq1 hq2
  rw [normalizeStep]
  dsimp only [Url.setPathname]
  split
  · refine ⟨hs1, hs2, hh1, hh2, ?_, ?_, hq1, hq2, Or.inl rfl⟩
    · show (if (dropTrailingSlashes up.data).isEmpty then "/"
        else (⟨dropTrailingSlashes up.data⟩ : String)).data.head? = some '/'
      cases hd : dropTrailingSlashes up.data with
      | nil => decide
      | cons a t =>
        have hne : dropTrailingSlashes up.data ≠ [] := by rw [hd]; simp
        have hh := dropTrailingSlashes_head hne
        rw [hd] at hh
        simp only [hd, List.isEmpty_cons, if_neg, Bool.false_eq_true, not_false_iff]
        rw [hh, hp1]
    · show ∀ c ∈ (if (dropTrailingSlashes up.data).isEmpty then "/"
        else (⟨dropTrailingSlashes up.data⟩ : String)).data, (c != '?' && c != '#') = true
      cases hd : dropTrailingSlashes up.data with
      | nil =>
        intro c hc
        rcases List.mem_singleton.mp hc with rfl
        decide
      | cons a t =>
        simp only [List.isEmpty_cons, if_neg, Bool.false_eq_true, not_false_iff]
        intro c hc
        exact hp2 c (dropTrailingSlashes_mem (hd ▸ hc))
  · exact ⟨hs1, hs2, hh1, hh2, hp1, hp2, hq1, hq2, Or.inl rfl⟩

theorem normalizeStep_path (u : Url) :
    (normalizeStep u).path = "/" ∨ endsWithChar (normalizeStep u).path.data '/' = false := by
  obtain ⟨us, uh, up, uq, uf⟩ := u
  rw [normalizeStep]
  dsimp only [Url.setPathname]
  split
  case isTrue h =>
    show (if (dropTrailingSlashes up.data).isEmpty then "/"
        else (⟨dropTrailingSlashes up.data⟩ : String)) = "/" ∨
      endsWithChar (if (dropTrailingSlashes up.data).isEmpty then "/"
        else (⟨dropTrailingSlashes up.data⟩ : String)).data '/' = false
    cases hd : dropTrailingSlashes up.data with
    | nil => left; simp
    | cons a t =>
      right
      simp only [List.isEmpty_cons, if_neg, Bool.false_eq_true, not_false_iff]
      have hlast := dropTrailingSlashes_getLast hd
      simp only [endsWithChar, beq_eq_false_iff_ne, ne_eq]
      simpa using hlast
  case isFalse h =>
    simp only [Bool.and_eq_true, bne_iff_ne, ne_eq, not_and] at h
    by_cases hp : up = "/"
    · left; exact hp
    · right
      have hh := h hp
      simpa using hh

theorem normalizeStep_fix {v : Url} (hfrag : v.fragment = "")
    (hpath : v.path = "/" ∨ endsWithChar v.path.data '/' = false) :
    normalizeStep v = v := by
  obtain ⟨vs, vh, vp, vq, vf⟩ := v
  dsimp only at hfrag hpath
  subst hfrag
  rw [normalizeStep]
  rcases hpath with hp | hp
  · subst hp
    simp
  · simp [hp]

theorem normalizeStep_idem (u : Url) :
    normalizeStep (normalizeStep u) = normalizeStep u :=
  normalizeStep_fix (normalizeStep_fragment u) (normalizeStep_path u)

/-- Parse-then-normalize of a `normalizeUrl` output is the identity on the
parsed components. -/
theorem parseUrl_normalizeUrl {s : String} {u : Url} (h : parseUrl s = some u) :
    parseUrl (normalizeUrl s) = some (normalizeStep u) := by
  rw [normalizeUrl_eq_step h]
  exact parse_toStr (normalizeStep_wf (parse_wf h))

theorem normalizeUrl_idem (s : String) :
    normalizeUrl (normalizeUrl s) = normalizeUrl s := by
  cases h : parseUrl s with
  | none => rw [normalizeUrl_eq_raw h, normalizeUrl_eq_raw h]
  | some u =>
    rw [normalizeUrl_eq_step (parseUrl_normalizeUrl h),
        normalizeStep_idem, ← normalizeUrl_eq_step h]

/-- **C6, counterexample.**  `"https://a.com//"` parses with path `"//"`,
which is not the root path `"/"`, yet `normalizeUrl` maps it to
`"https://a.com/"`, whose path still ends with a trailing slash: stripping
the all-slash path re-serializes as the root.  So the trailing slash is
*not* stripped for every path except exactly `/`. -/
theorem C6_counterexample :
    parseUrl "https://a.com//" =
      some { scheme := "https", host := "a.com", path := "//",
              query := "", fragment := "" } ∧
    ("//" : String) ≠ "/" ∧
    normalizeUrl "https://a.com//" = "https://a.com/" ∧
    (normalizeUrl "https://a.com//").data.getLast? = some '/' ∧
    parseUrl (normalizeUrl "https://a.com//") =
      some { scheme := "https", host := "a.com", path := "/",
              query := "", fragment := "" } := by
  refine ⟨by decide, by decide, by decide, by decide, by decide⟩

/-- **C6** (amended).  `normalizeUrl` is idempotent on every string, and on
every parseable URL the result re-parses with an empty fragment and with a
path that ends in a slash only when it is exactly the root path `/` (an
all-slash path collapses to the root path, which keeps its slash; every
other path loses its trailing slashes). -/
theorem C6_normalizeUrl_canonical :
    (∀ s : String, normalizeUrl (normalizeUrl s) = normalizeUrl s) ∧
    (∀ (s : String) (u : Url), parseUrl s = some u →
      ∀ v : Url, parseUrl (normalizeUrl s) = some v →
        v.fragment = "" ∧ (endsWithChar v.path.data '/' = true → v.path = "/")) := by
  refine ⟨normalizeUrl_idem, ?_⟩
  intro s u h v hv
  rw [parseUrl_normalizeUrl h, Option.some_inj] at hv
  subst hv
  refine ⟨normalizeStep_fragment u, ?_⟩
  intro hends
  rcases normalizeStep_path u with hp | hp
  · exact hp
  · rw [hp] at hends
    cases hends

/-- Witness for C6: the amended theorem applied at the concrete URL
`"https://a.com/docs/?q=1#frag"`, whose canonical form is
`"https://a.com/docs?q=1"`. -/
theorem C6_witness :
    normalizeUrl (normalizeUrl "https://a.com/docs/?q=1#frag") =
      normalizeUrl "https://a.com/docs/?q=1#frag" ∧
    (({ scheme := "https", host := "a.com", path := "/docs", query := "?q=1",
         fragment := "" } : Url).fragment = "" ∧
      (endsWithChar ({ scheme := "https", host := "a.com", path := "/docs",
                       query := "?q=1", fragment := "" } : Url).path.data '/' = true →
        ({ scheme := "https", host := "a.com", path := "/docs", query := "?q=1",
            fragment := "" } : Url).path = "/")) :=
  ⟨C6_normalizeUrl_canonical.1 "https://a.com/docs/?q=1#frag",
   C6_normalizeUrl_canonical.2 "https://a.com/docs/?q=1#frag"
     { scheme := "https", host := "a.com", path := "/docs/", query := "?q=1",
        fragment := "#frag" } (by decide)
     { scheme := "https", host := "a.com", path := "/docs", query := "?q=1",
        fragment := "" } (by decide)⟩

/-! ## Crawler data model (renderer.ts, extractor part_001) -/

inductive ActionType
  | navigate
  | click
  | toggle
deriving Repr, DecidableEq

structure Action where
  type : ActionType
  label : String
  href : Option String := none
  selector : String := ""
  options : List String := []
deriving Repr, DecidableEq

structure Transition where
  triggerLabel : String
  triggerSelector : String := ""
  actions : List Action := []
  added : List String := []
  removed : List String := []
deriving Repr, DecidableEq

/-- Edge types: `Action["type"] | "transition"`. -/
inductive EdgeType
  | navigate
  | click
  | toggle
  | transition
deriving Repr, DecidableEq

def ActionType.toEdgeType : ActionType → EdgeType
  | .navigate => .navigate
  | .click => .click
  | .toggle => .toggle

structure Edge where
  «to» : String
  label : String
  type : EdgeType
  options : List String := []
deriving Repr, DecidableEq

structure PageVisit where
  url : String
  title : String
  depth : Nat
  actions : List Action
deriving Repr, DecidableEq

/-- A frontier entry: `{ url, depth, origin }`. -/
structure Frontier where
  url : String
  depth : Nat
  origin : Option String
deriving Repr, DecidableEq

/-- A JS object with string keys, modelled as an insertion-ordered
association list (string keys here are URLs / node ids, never integer-like,
so JS enumeration order is insertion order). -/
abbrev Record (α : Type) : Type := List (String × α)

/-- Embeds `m[k]` on a JS object. -/
def recordGet {α} (m : Record α) (k : String) : Option α :=
  (m.find? (fun p => p.1 == k)).map Prod.snd

/-- Embeds `m[k] = v`: overwrite in place, else append. -/
def recordSet {α} : Record α → String → α → Record α
  | [], k, v => [(k, v)]
  | (k', v') :: m, k, v =>
    if k' = k then (k, v) :: m else (k', v') :: recordSet m k v

structure CrawlOptions where
  seeds : List String
  maxDepth : Option Nat := none
  maxPages : Option Nat := none
  sameOrigin : Option Bool := none
  concurrency : Option Nat := none
  discoverTransitions : Option Bool := none
  transitionsPerPage : Option Nat := none

structure CrawlResult where
  pages : List PageVisit
  graph : Record (List String)
  actionGraph : Record (List Edge)
deriving Repr, DecidableEq

/-! ## `resolveHref`: `new URL(href, baseUrl)` plus the http(s) filter -/

/-- Split a reference into path / query / fragment parts. -/
def splitRef (l : List Char) : List Char × List Char × List Char :=
  (l.takeWhile (fun c => c != '?' && c != '#'),
   (l.dropWhile (fun c => c != '?' && c != '#')).takeWhile (fun c => c != '#'),
   (l.dropWhile (fun c => c != '?' && c != '#')).dropWhile (fun c => c != '#'))

/-- Embeds relative-reference resolution of `new URL(href, base)` for a
non-empty `href` against a parsed base (absolute form, protocol-relative
`//`, absolute path `/`, query-only `?`, fragment-only `#`, or a relative
path merged onto the base path's directory). -/
def resolveRel (href : String) (base : Url) : Option Url :=
  match parseUrl href with
  | some u => some u
  | none =>
    if (href.data.takeWhile (fun c => c != ':')) ≠ [] ∧
        (href.data.takeWhile (fun c => c != ':')).all Char.isAlpha = true ∧
        (href.data.dropWhile (fun c => c != ':')) ≠ [] then
      some { scheme := ⟨href.data.takeWhile (fun c => c != ':')⟩, host := "",
              path := ⟨(href.data.dropWhile (fun c => c != ':')).tail⟩,
              query := "", fragment := "" }
    else
    match href.data with
    | [] => none
    | '/' :: '/' :: _ => parseUrl (base.scheme ++ ":" ++ href)
    | '/' :: _ =>
      let (p, q, f) := splitRef href.data
      some { base with path := ⟨p⟩, query := ⟨q⟩, fragment := ⟨f⟩ }
    | '?' :: _ =>
      some { base with query := ⟨href.data.takeWhile (fun c => c != '#')⟩,
                        fragment := ⟨href.data.dropWhile (fun c => c != '#')⟩ }
    | '#' :: _ => some { base with fragment := href }
    | _ :: _ =>
      let dir := (base.path.data.reverse.dropWhile (fun c => c != '/')).reverse
      let (p, q, f) := splitRef href.data
      some { base with path := ⟨dir ++ p⟩, query := ⟨q⟩, fragment := ⟨f⟩ }

/-- Embeds `resolveHref` (renderer.ts 236-245): resolve against the base,
keep only http(s) results, serialized. -/
def resolveHref (baseUrl : String) (href : Option String) : Option String :=
  match href with
  | none => none
  | some h =>
    if h = "" then none
    else
      match parseUrl baseUrl with
      | none => none
      | some base =>
        match resolveRel h base with
        | none => none
        | some abs =>
          if abs.scheme = "http" || abs.scheme = "https" then some abs.toStr
          else none

example : resolveHref "https://a.com/x" (some "/docs/") = some "https://a.com/docs/" := by
  decide
example : resolveHref "https://a.com/x" (some "mailto:k@b.c") = none := by decide
example : resolveHref "https://a.com/x" (some "https://b.com/y") =
    some "https://b.com/y" := by decide
example : resolveHref "https://a.com/x" none = none := by decide

/-! ## The visit oracle and per-page merge -/

/-- What the browser produces for one requested URL: the final URL after
redirects, the title, the extracted actions, and the discovered
transitions.  This is the boundary to `Renderer.renderAndRun` /
`Extractor.extract` / `Extractor.discoverTransitions`. -/
structure RenderedPage where
  currentUrl : String
  title : String := ""
  actions : List Action := []
  transitions : List Transition := []

/-- The browser oracle; `none` models the per-page visit promise
rejecting. -/
abbrev VisitOracle : Type := String → Option RenderedPage

structure VisitRes where
  normalized : String
  title : String
  actions : List Action
  transitions : List Transition

/-- Embeds `Crawler.visit` (renderer.ts 279-295): render the page, extract
actions, discover transitions only when enabled (capped by
`transitionsPerPage`), canonicalize the final URL. -/
def visit (W : VisitOracle) (url : String) (discoverTransitions : Bool)
    (transitionsPerPage : Nat) : Option VisitRes :=
  (W url).map fun r =>
    { normalized := normalizeUrl r.currentUrl
      title := r.title
      actions := r.actions
      transitions :=
        if discoverTransitions then r.transitions.take transitionsPerPage else [] }

/-- The crawl accumulators: the visited set, `pages`, `graph`,
`actionGraph`. -/
structure CrawlState where
  visited : List String
  pages : List PageVisit
  graph : Record (List String)
  actionGraph : Record (List Edge)
deriving Repr, DecidableEq

/-- The origin filter of the action loop (renderer.ts 355-359): under
`sameOrigin` with a known seed-chain origin, the resolved target must parse
and its origin must equal the seed's origin (`continue` on mismatch or
parse failure). -/
def originOk (sameOrigin : Bool) (baseOrigin : Option String) (finalUrl : String) : Bool :=
  if sameOrigin then
    match baseOrigin with
    | none => true
    | some bo =>
      match parseUrl finalUrl with
      | none => false
      | some u => u.origin == bo
  else true

/-- Embeds one iteration of the action loop (renderer.ts 350-367) over the
`(nextUrls, actionEdges)` accumulator pair. -/
def processAction (sameOrigin : Bool) (baseOrigin : Option String)
    (visited : List String) (normalized : String)
    (acc : List String × List Edge) (a : Action) : List String × List Edge :=
  if a.type = ActionType.navigate then
    match resolveHref normalized a.href with
    | none => acc
    | some abs =>
      let finalUrl := normalizeUrl abs
      if originOk sameOrigin baseOrigin finalUrl then
        (if visited.contains finalUrl then acc.1 else acc.1 ++ [finalUrl],
         acc.2 ++ [{ «to» := finalUrl, label := a.label, type := EdgeType.navigate }])
      else acc
  else
    (acc.1,
     acc.2 ++ [{ «to» := normalized, label := a.label, type := a.type.toEdgeType,
                 options := a.options }])

/-- Embeds `[...new Set(l)]`: first-occurrence dedup. -/
def dedup (l : List String) : List String :=
  l.foldl (fun acc x => if acc.contains x then acc else acc ++ [x]) []

/-- Embeds `s.toLowerCase()`. -/
def toLowerStr (s : String) : String := ⟨s.data.map Char.toLower⟩

/-- The navigate-edge lookup for an option label (renderer.ts 386):
first recorded navigate edge with a truthy label equal to the option
case-insensitively. -/
def navMatchIn (edges : List Edge) (opt : String) : Option Edge :=
  edges.find? fun e =>
    e.type == EdgeType.navigate && e.label != "" &&
      toLowerStr e.label == toLowerStr opt

/-- One option of one transition (the body of the `for (const opt of
combined)` loop, renderer.ts 380-393). -/
def addOption (normalized transitionNode : String) (actionEdges : List Edge)
    (g : Record (List Edge)) (opt : String) : Record (List Edge) :=
  if opt = "" then g
  else
    let optNode := transitionNode ++ "::OPT::" ++ opt
    let g1 := recordSet g transitionNode
      ((recordGet g transitionNode).getD [] ++
        [{ «to» := optNode, label := opt, type := EdgeType.click }])
    let g2 := if (recordGet g1 optNode).isSome then g1 else recordSet g1 optNode []
    match navMatchIn actionEdges opt with
    | some e =>
      recordSet g2 optNode ((recordGet g2 optNode).getD [] ++
        [{ «to» := e.to, label := if e.label = "" then opt else e.label,
           type := EdgeType.navigate }])
    | none =>
      recordSet g2 optNode ((recordGet g2 optNode).getD [] ++
        [{ «to» := normalized, label := opt, type := EdgeType.click }])

/-- The option labels of a transition (renderer.ts 378, the `combined`
list): `added`, or `removed` when `added` is empty, first occurrences
only. -/
def combinedOf (tr : Transition) : List String :=
  dedup (tr.added ++ if tr.added.length != 0 then [] else tr.removed)

/-- Embeds one iteration of the transition loop (renderer.ts 370-394) over
the `(actionEdges, actionGraph)` pair: push the page→transition edge,
create the transition node entry, and fold `addOption` over the combined
option labels. -/
def processTransition (normalized : String)
    (acc : List Edge × Record (List Edge)) (tr : Transition) :
    List Edge × Record (List Edge) :=
  let trigger := tr.triggerLabel
  if trigger = "" then acc
  else
    let transitionNode := normalized ++ "::TRANS::" ++ trigger
    let actionEdges := acc.1 ++
      [{ «to» := transitionNode, label := trigger, type := EdgeType.transition }]
    let aG := if (recordGet acc.2 transitionNode).isSome then acc.2
              else recordSet acc.2 transitionNode []
    (actionEdges,
     (combinedOf tr).foldl (addOption normalized transitionNode actionEdges) aG)

/-- The trigger labels of the page's transition edges. -/
def transitionLabels (edges : List Edge) : List String :=
  (edges.filter (fun e => e.type == EdgeType.transition)).map Edge.label

/-- The per-page graph contribution (renderer.ts 347-397): fold the actions
and transitions, then suppress click/toggle self-loops that share a label
with a transition edge. -/
structure PageBuild where
  nextUrls : List String
  filteredEdges : List Edge
  actionGraph : Record (List Edge)
deriving Repr, DecidableEq

def buildPage (sameOrigin : Bool) (baseOrigin : Option String)
    (visited : List String) (aG : Record (List Edge)) (normalized : String)
    (actions : List Action) (transitions : List Transition) : PageBuild :=
  let na := actions.foldl (processAction sameOrigin baseOrigin visited normalized) ([], [])
  let ta := transitions.foldl (processTransition normalized) (na.2, aG)
  let tls := transitionLabels ta.1
  let filteredEdges := ta.1.filter fun e =>
    !(e.type != EdgeType.navigate && e.type != EdgeType.transition &&
      tls.contains e.label)
  { nextUrls := na.1, filteredEdges := filteredEdges, actionGraph := ta.2 }

/-- Merging one fulfilled visit into the crawl state (renderer.ts 339-409):
re-check and claim the canonical URL, write `graph`/`actionGraph`/`pages`,
and emit next-layer frontier candidates when within the depth budget. -/
def mergeVisit (sameOrigin : Bool) (maxDepth : Nat)
    (st : CrawlState) (cands : List Frontier)
    (input : Frontier) (res : VisitRes) : CrawlState × List Frontier :=
  let baseOrigin := input.origin
  let normalized := res.normalized
  if st.visited.contains normalized then (st, cands)
  else
    let visited := normalized :: st.visited
    let pb := buildPage sameOrigin baseOrigin visited st.actionGraph normalized
      res.actions res.transitions
    let graph := recordSet st.graph normalized pb.nextUrls
    let actionGraph := recordSet pb.actionGraph normalized
      ((recordGet pb.actionGraph normalized).getD [] ++ pb.filteredEdges)
    let pages := st.pages ++ [{ url := normalized, title := res.title,
                                depth := input.depth, actions := res.actions }]
    let childDepth := input.depth + 1
    let cands' := if childDepth ≤ maxDepth then
        cands ++ pb.nextUrls.map (fun nurl =>
          { url := nurl, depth := childDepth, origin := baseOrigin })
      else cands
    ({ visited := visited, pages := pages, graph := graph,
       actionGraph := actionGraph }, cands')

/-- One settled promise: a rejection (`none`) is skipped, a fulfilled
result is merged. -/
def mergeOutcome (sameOrigin : Bool) (maxDepth : Nat)
    (acc : CrawlState × List Frontier) (r : Frontier × Option VisitRes) :
    CrawlState × List Frontier :=
  match r.2 with
  | none => acc
  | some res => mergeVisit sameOrigin maxDepth acc.1 acc.2 r.1 res

/-- Merging a chunk's settled results in order (renderer.ts 339-340). -/
def processResults (sameOrigin : Bool) (maxDepth : Nat)
    (acc : CrawlState × List Frontier) (rs : List (Frontier × Option VisitRes)) :
    CrawlState × List Frontier :=
  rs.foldl (mergeOutcome sameOrigin maxDepth) acc

theorem mergeOutcome_none (so : Bool) (md : Nat)
    (acc : CrawlState × List Frontier) (r : Frontier × Option VisitRes)
    (h : r.2 = none) : mergeOutcome so md acc r = acc := by
  rw [mergeOutcome, h]

theorem mergeOutcome_some (so : Bool) (md : Nat)
    (acc : CrawlState × List Frontier) (r : Frontier × Option VisitRes)
    (res : VisitRes) (h : r.2 = some res) :
    mergeOutcome so md acc r = mergeVisit so md acc.1 acc.2 r.1 res := by
  rw [mergeOutcome, h]

/-- The chunked dispatch loop (renderer.ts 332-410): visit `concurrency`
frontier entries at a time and merge each chunk's settled results.  The
fuel argument is the layer length; `concurrency ≥ 1` consumes it. -/
def runLayer (W : VisitOracle) (sameOrigin : Bool) (maxDepth : Nat)
    (discoverTransitions : Bool) (transitionsPerPage : Nat) (conc : Nat) :
    Nat → List Frontier → CrawlState × List Frontier → CrawlState × List Frontier
  | 0, _, acc => acc
  | _, [], acc => acc
  | fuel + 1, toVisit@(_ :: _), acc =>
    let chunk := toVisit.take conc
    let outcomes := chunk.map fun f =>
      (f, visit W f.url discoverTransitions transitionsPerPage)
    runLayer W sameOrigin maxDepth discoverTransitions transitionsPerPage conc
      fuel (toVisit.drop conc) (processResults sameOrigin maxDepth acc outcomes)

/-- Next-layer dedup (renderer.ts 412-419): drop visited and repeated
candidate URLs, keeping first occurrences. -/
def dedupFrontier (visited : List String) (cands : List Frontier) : List Frontier :=
  (cands.foldl (fun (acc : List String × List Frontier) c =>
    if visited.contains c.url then acc
    else if acc.1.contains c.url then acc
    else (acc.1 ++ [c.url], acc.2 ++ [c])) ([], [])).2

/-- The depth-layer loop (renderer.ts 322-425).  The fuel is `maxDepth + 1`
(the loop body runs at most once per depth `0..maxDepth`). -/
def crawlLoop (W : VisitOracle) (sameOrigin : Bool) (maxDepth maxPages : Nat)
    (conc : Nat) (discoverTransitions : Bool) (transitionsPerPage : Nat) :
    Nat → Nat → CrawlState → List Frontier → CrawlState
  | 0, _, st, _ => st
  | fuel + 1, depth, st, frontier =>
    if depth ≤ maxDepth ∧ frontier ≠ [] ∧ st.pages.length < maxPages then
      let currentLayer := frontier.filter (fun f => f.depth == depth)
      if currentLayer.isEmpty then
        crawlLoop W sameOrigin maxDepth maxPages conc discoverTransitions
          transitionsPerPage fuel (depth + 1) st frontier
      else
        let toVisit := (currentLayer.filter
          (fun f => !st.visited.contains f.url)).take (maxPages - st.pages.length)
        let out := runLayer W sameOrigin maxDepth discoverTransitions
          transitionsPerPage conc toVisit.length toVisit (st, [])
        crawlLoop W sameOrigin maxDepth maxPages conc discoverTransitions
          transitionsPerPage fuel (depth + 1) out.1 (dedupFrontier out.1.visited out.2)
    else st

/-- Embeds `Crawler.crawl` (renderer.ts 297-463), with screenshot/JSONL
side effects omitted and the browser as the oracle `W`. -/
def crawl (W : VisitOracle) (options : CrawlOptions) : CrawlResult :=
  let maxDepth := options.maxDepth.getD 1
  let maxPages := options.maxPages.getD 50
  let sameOrigin := options.sameOrigin.getD true
  let concurrency := max 1 (min (options.concurrency.getD 3) 10)
  let discoverTransitions := options.discoverTransitions.getD true
  let transitionsPerPage := max 0 (min (options.transitionsPerPage.getD 12) 50)
  let frontier := options.seeds.map fun s =>
    { url := normalizeUrl s, depth := 0, origin := (parseUrl s).map Url.origin }
  let st := crawlLoop W sameOrigin maxDepth maxPages concurrency
    discoverTransitions transitionsPerPage (maxDepth + 1) 0 ⟨[], [], [], []⟩ frontier
  { pages := st.pages, graph := st.graph, actionGraph := st.actionGraph }

/-! ## Record lemmas -/

theorem recordGet_nil {α} (k : String) : recordGet ([] : Record α) k = none := rfl

theorem recordGet_cons {α} (k₀ : String) (v₀ : α) (m : Record α) (k : String) :
    recordGet ((k₀, v₀) :: m) k =
      if k₀ = k then some v₀ else recordGet m k := by
  by_cases h : k₀ = k
  · simp [recordGet, List.find?_cons_of_pos, h]
  · rw [if_neg h]
    simp only [recordGet]
    rw [List.find?_cons_of_neg]
    simp [h]

theorem recordGet_set_self {α} (k : String) (v : α) :
    ∀ m : Record α, recordGet (recordSet m k v) k = some v
  | [] => by simp [recordSet, recordGet_cons]
  | (k₀, v₀) :: m => by
    by_cases h : k₀ = k
    · simp [recordSet, h, recordGet_cons]
    · rw [recordSet, if_neg h, recordGet_cons, if_neg h]
      exact recordGet_set_self k v m

theorem recordGet_set_other {α} (k k' : String) (v : α) (hne : k' ≠ k) :
    ∀ m : Record α, recordGet (recordSet m k v) k' = recordGet m k'
  | [] => by
    rw [recordSet, recordGet_cons, if_neg (Ne.symm hne), recordGet_nil]
  | (k₀, v₀) :: m => by
    by_cases h : k₀ = k
    · subst h
      rw [recordSet, if_pos rfl, recordGet_cons, recordGet_cons,
          if_neg (Ne.symm hne), if_neg (Ne.symm hne)]
    · rw [recordSet, if_neg h, recordGet_cons, recordGet_cons]
      by_cases h2 : k₀ = k'
      · rw [if_pos h2, if_pos h2]
      · rw [if_neg h2, if_neg h2]
        exact recordGet_set_other k k' v hne m

/-- Record extension: every existing entry keeps its value as a prefix. -/
def RecExt {α} (m m' : Record (List α)) : Prop :=
  ∀ k l, recordGet m k = some l → ∃ suf, recordGet m' k = some (l ++ suf)

theorem RecExt.refl {α} (m : Record (List α)) : RecExt m m :=
  fun _ l h => ⟨[], by simpa using h⟩

theorem RecExt.trans {α} {m₁ m₂ m₃ : Record (List α)}
    (h₁ : RecExt m₁ m₂) (h₂ : RecExt m₂ m₃) : RecExt m₁ m₃ := by
  intro k l h
  obtain ⟨s₁, hs₁⟩ := h₁ k l h
  obtain ⟨s₂, hs₂⟩ := h₂ k _ hs₁
  exact ⟨s₁ ++ s₂, by rw [hs₂, List.append_assoc]⟩

theorem RecExt.set_append {α} (m : Record (List α)) (k : String) (suf : List α) :
    RecExt m (recordSet m k ((recordGet m k).getD [] ++ suf)) := by
  intro k' l h
  by_cases hk : k' = k
  · subst hk
    refine ⟨suf, ?_⟩
    rw [recordGet_set_self, h]
    rfl
  · exact ⟨[], by rw [recordGet_set_other _ _ _ hk, h, List.append_nil]⟩

theorem RecExt.set_fresh {α} {m : Record (List α)} {k : String}
    (h : recordGet m k = none) (v : List α) : RecExt m (recordSet m k v) := by
  intro k' l hl
  by_cases hk : k' = k
  · subst hk
    rw [hl] at h
    cases h
  · exact ⟨[], by rw [recordGet_set_other _ _ _ hk, hl, List.append_nil]⟩

/-- A record entry contains a value. -/
def MemEntry {α} (m : Record (List α)) (k : String) (e : α) : Prop :=
  ∃ l, recordGet m k = some l ∧ e ∈ l

theorem MemEntry.mono {α} {m m' : Record (List α)} {k : String} {e : α}
    (h : MemEntry m k e) (hext : RecExt m m') : MemEntry m' k e := by
  obtain ⟨l, hl, he⟩ := h
  obtain ⟨suf, hsuf⟩ := hext k l hl
  exact ⟨l ++ suf, hsuf, List.mem_append_left _ he⟩

theorem MemEntry.push {α} (m : Record (List α)) (k : String) (e : α) :
    MemEntry (recordSet m k ((recordGet m k).getD [] ++ [e])) k e :=
  ⟨_, recordGet_set_self _ _ _, List.mem_append_right _ (List.mem_singleton.mpr rfl)⟩

/-! ## Characterizing the action loop -/

/-- The navigate edge an action records. -/
def navEdgeOf (a : Action) (finalUrl : String) : Edge :=
  { «to» := finalUrl, label := a.label, type := EdgeType.navigate }

/-- The self-loop edge a click/toggle action records. -/
def selfEdgeOf (normalized : String) (a : Action) : Edge :=
  { «to» := normalized, label := a.label, type := a.type.toEdgeType,
    options := a.options }

/-- How one action can contribute an edge to the page's `actionEdges`. -/
def ActionContrib (so : Bool) (bo : Option String) (normalized : String)
    (a : Action) (e : Edge) : Prop :=
  (a.type = ActionType.navigate ∧ ∃ abs,
    resolveHref normalized a.href = some abs ∧
    originOk so bo (normalizeUrl abs) = true ∧
    e = navEdgeOf a (normalizeUrl abs)) ∨
  (a.type ≠ ActionType.navigate ∧ e = selfEdgeOf normalized a)

theorem processAction_mem_step (so : Bool) (bo : Option String)
    (visited : List String) (normalized : String)
    (acc : List String × List Edge) (a : Action) (e : Edge) :
    e ∈ (processAction so bo visited normalized acc a).2 ↔
      e ∈ acc.2 ∨ ActionContrib so bo normalized a e := by
  simp only [processAction, ActionContrib]
  by_cases hnav : a.type = ActionType.navigate
  · rw [if_pos hnav]
    split
    next hres => simp [hnav, hres]
    next abs hres =>
      by_cases hok : originOk so bo (normalizeUrl abs) = true
      · rw [if_pos hok]
        simp [hnav, hres, hok, navEdgeOf]
      · rw [if_neg hok]
        simp [hnav, hres, hok]
  · rw [if_neg hnav]
    simp [hnav, selfEdgeOf]

theorem processAction_fold_mem_edges (so : Bool) (bo : Option String)
    (visited : List String) (normalized : String) :
    ∀ (actions : List Action) (acc : List String × List Edge) (e : Edge),
      e ∈ (actions.foldl (processAction so bo visited normalized) acc).2 ↔
        e ∈ acc.2 ∨ ∃ a ∈ actions, ActionContrib so bo normalized a e
  | [], acc, e => by simp
  | a :: actions, acc, e => by
    rw [List.foldl_cons,
        processAction_fold_mem_edges so bo visited normalized actions _ e,
        processAction_mem_step, List.exists_mem_cons_iff, or_assoc]

/-- How one action can contribute a next-layer URL. -/
def ActionNext (so : Bool) (bo : Option String) (visited : List String)
    (normalized : String) (a : Action) (t : String) : Prop :=
  a.type = ActionType.navigate ∧ ∃ abs,
    resolveHref normalized a.href = some abs ∧ t = normalizeUrl abs ∧
    originOk so bo t = true ∧ visited.contains t = false

theorem processAction_next_step (so : Bool) (bo : Option String)
    (visited : List String) (normalized : String)
    (acc : List String × List Edge) (a : Action) (t : String) :
    t ∈ (processAction so bo visited normalized acc a).1 ↔
      t ∈ acc.1 ∨ ActionNext so bo visited normalized a t := by
  simp only [processAction, ActionNext]
  by_cases hnav : a.type = ActionType.navigate
  · rw [if_pos hnav]
    split
    next hres => simp [hnav, hres]
    next abs hres =>
      by_cases hok : originOk so bo (normalizeUrl abs) = true
      · rw [if_pos hok]
        by_cases hvis : visited.contains (normalizeUrl abs) = true
        · rw [if_pos hvis]
          simp only [hnav, hres, true_and, Option.some_inj]
          constructor
          · exact Or.inl
          · rintro (h | ⟨abs', habs, rfl, _, hv⟩)
            · exact h
            · subst habs
              rw [hvis] at hv
              cases hv
        · rw [if_neg hvis]
          rw [Bool.not_eq_true] at hvis
          simp only [hnav, hres, hok, hvis, true_and, Option.some_inj,
            List.mem_append, List.mem_singleton]
          constructor
          · rintro (h | rfl)
            · exact Or.inl h
            · exact Or.inr ⟨abs, rfl, rfl, hok, hvis⟩
          · rintro (h | ⟨abs', habs, rfl, _, _⟩)
            · exact Or.inl h
            · subst habs
              exact Or.inr rfl
      · rw [if_neg hok]
        simp only [hnav, hres, true_and, Option.some_inj]
        constructor
        · exact Or.inl
        · rintro (h | ⟨abs', habs, rfl, hok', _⟩)
          · exact h
          · subst habs
            exact absurd hok' hok
  · rw [if_neg hnav]
    simp [hnav]

theorem processAction_fold_mem_next (so : Bool) (bo : Option String)
    (visited : List String) (normalized : String) :
    ∀ (actions : List Action) (acc : List String × List Edge) (t : String),
      t ∈ (actions.foldl (processAction so bo visited normalized) acc).1 ↔
        t ∈ acc.1 ∨ ∃ a ∈ actions, ActionNext so bo visited normalized a t
  | [], acc, t => by simp
  | a :: actions, acc, t => by
    rw [List.foldl_cons,
        processAction_fold_mem_next so bo visited normalized actions _ t,
        processAction_next_step, List.exists_mem_cons_iff, or_assoc]

/-! ## Characterizing the transition loop -/

/-- The page→transition edge of a transition. -/
def trEdgeOf (normalized : String) (tr : Transition) : Edge :=
  { «to» := normalized ++ "::TRANS::" ++ tr.triggerLabel,
    label := tr.triggerLabel, type := EdgeType.transition }

/-- The transition edges appended by the transition loop: one per
transition with a non-empty trigger, in order. -/
def trEdges (normalized : String) (ts : List Transition) : List Edge :=
  ts.filterMap fun tr =>
    if tr.triggerLabel = "" then none else some (trEdgeOf normalized tr)

theorem processTransition_fst (normalized : String)
    (acc : List Edge × Record (List Edge)) (tr : Transition) :
    (processTransition normalized acc tr).1 =
      acc.1 ++ trEdges normalized [tr] := by
  rw [processTransition, trEdges]
  by_cases h : tr.triggerLabel = ""
  · simp [h]
  · simp [h, trEdgeOf]

theorem processTransition_fold_fst (normalized : String) :
    ∀ (ts : List Transition) (acc : List Edge × Record (List Edge)),
      (ts.foldl (processTransition normalized) acc).1 =
        acc.1 ++ trEdges normalized ts
  | [], acc => by simp [trEdges]
  | tr :: ts, acc => by
    rw [List.foldl_cons, processTransition_fold_fst normalized ts,
        processTransition_fst, trEdges, List.filterMap_cons]
    by_cases h : tr.triggerLabel = ""
    · simp [h, trEdges]
    · simp [h, trEdges, trEdgeOf]

theorem RecExt.ensure {α} (m : Record (List α)) (k : String) :
    RecExt m (if (recordGet m k).isSome then m else recordSet m k []) := by
  split
  next => exact RecExt.refl m
  next h => exact RecExt.set_fresh (Option.not_isSome_iff_eq_none.mp (by simpa using h)) []

theorem addOption_ext (normalized transitionNode : String)
    (actionEdges : List Edge) (g : Record (List Edge)) (opt : String) :
    RecExt g (addOption normalized transitionNode actionEdges g opt) := by
  rw [addOption]
  by_cases h : opt = ""
  · rw [if_pos h]
    exact RecExt.refl g
  · rw [if_neg h]
    dsimp only
    cases navMatchIn actionEdges opt with
    | some e =>
      exact RecExt.trans (RecExt.trans (RecExt.set_append g transitionNode _)
        (RecExt.ensure _ _)) (RecExt.set_append _ _ _)
    | none =>
      exact RecExt.trans (RecExt.trans (RecExt.set_append g transitionNode _)
        (RecExt.ensure _ _)) (RecExt.set_append _ _ _)

theorem addOption_fold_ext (normalized transitionNode : String)
    (actionEdges : List Edge) :
    ∀ (opts : List String) (g : Record (List Edge)),
      RecExt g (opts.foldl (addOption normalized transitionNode actionEdges) g)
  | [], g => RecExt.refl g
  | opt :: opts, g => by
    rw [List.foldl_cons]
    exact RecExt.trans (addOption_ext normalized transitionNode actionEdges g opt)
      (addOption_fold_ext normalized transitionNode actionEdges opts _)

theorem processTransition_ext (normalized : String)
    (acc : List Edge × Record (List Edge)) (tr : Transition) :
    RecExt acc.2 (processTransition normalized acc tr).2 := by
  rw [processTransition]
  by_cases h : tr.triggerLabel = ""
  · rw [if_pos h]
    exact RecExt.refl _
  · rw [if_neg h]
    dsimp only
    exact RecExt.trans (RecExt.ensure _ _) (addOption_fold_ext _ _ _ _ _)

theorem processTransition_fold_ext (normalized : String) :
    ∀ (ts : List Transition) (acc : List Edge × Record (List Edge)),
      RecExt acc.2 (ts.foldl (processTransition normalized) acc).2
  | [], acc => RecExt.refl _
  | tr :: ts, acc => by
    rw [List.foldl_cons]
    exact RecExt.trans (processTransition_ext normalized acc tr)
      (processTransition_fold_ext normalized ts _)

/-- The transition→option edge of one option label. -/
def optClickEdge (transitionNode opt : String) : Edge :=
  { «to» := transitionNode ++ "::OPT::" ++ opt, label := opt,
    type := EdgeType.click }

/-- The outgoing edge an option node receives: the matching navigate
edge's destination, else the loop back to the page node. -/
def optTargetEdge (normalized : String) (edges : List Edge) (opt : String) : Edge :=
  match navMatchIn edges opt with
  | some e => { «to» := e.to, label := if e.label = "" then opt else e.label,
                type := EdgeType.navigate }
  | none => { «to» := normalized, label := opt, type := EdgeType.click }

theorem optTargetEdge_some {edges : List Edge} {opt : String} {e : Edge}
    (hnm : navMatchIn edges opt = some e) (normalized : String) :
    optTargetEdge normalized edges opt =
      { «to» := e.to, label := if e.label = "" then opt else e.label,
        type := EdgeType.navigate } := by
  simp [optTargetEdge, hnm]

theorem optTargetEdge_none {edges : List Edge} {opt : String}
    (hnm : navMatchIn edges opt = none) (normalized : String) :
    optTargetEdge normalized edges opt =
      { «to» := normalized, label := opt, type := EdgeType.click } := by
  simp [optTargetEdge, hnm]

theorem addOption_content (normalized transitionNode : String)
    (actionEdges : List Edge) (g : Record (List Edge)) (opt : String)
    (hne : opt ≠ "") :
    MemEntry (addOption normalized transitionNode actionEdges g opt)
      transitionNode (optClickEdge transitionNode opt) ∧
    MemEntry (addOption normalized transitionNode actionEdges g opt)
      (transitionNode ++ "::OPT::" ++ opt)
      (optTargetEdge normalized actionEdges opt) := by
  rw [addOption, if_neg hne]
  dsimp only
  split
  next e hnm =>
    constructor
    · exact (MemEntry.push g transitionNode _).mono
        (RecExt.trans (RecExt.ensure _ _) (RecExt.set_append _ _ _))
    · rw [optTargetEdge_some hnm]
      exact MemEntry.push _ _ _
  next hnm =>
    constructor
    · exact (MemEntry.push g transitionNode _).mono
        (RecExt.trans (RecExt.ensure _ _) (RecExt.set_append _ _ _))
    · rw [optTargetEdge_none hnm]
      exact MemEntry.push _ _ _

theorem addOption_fold_content (normalized transitionNode : String)
    (actionEdges : List Edge) :
    ∀ (opts : List String) (g : Record (List Edge)) (opt : String),
      opt ∈ opts → opt ≠ "" →
      MemEntry (opts.foldl (addOption normalized transitionNode actionEdges) g)
        transitionNode (optClickEdge transitionNode opt) ∧
      MemEntry (opts.foldl (addOption normalized transitionNode actionEdges) g)
        (transitionNode ++ "::OPT::" ++ opt)
        (optTargetEdge normalized actionEdges opt)
  | [], _, _, h, _ => absurd h (List.not_mem_nil _)
  | o :: opts, g, opt, h, hne => by
    rw [List.foldl_cons]
    rcases List.mem_cons.mp h with rfl | h'
    · have hc := addOption_content normalized transitionNode actionEdges g opt hne
      exact ⟨hc.1.mono (addOption_fold_ext normalized transitionNode actionEdges opts _),
             hc.2.mono (addOption_fold_ext normalized transitionNode actionEdges opts _)⟩
    · exact addOption_fold_content normalized transitionNode actionEdges opts _ opt h' hne

theorem processTransition_content (normalized : String)
    (acc : List Edge × Record (List Edge)) (tr : Transition)
    (htr : tr.triggerLabel ≠ "") (opt : String) (hopt : opt ∈ combinedOf tr)
    (hne : opt ≠ "") :
    MemEntry (processTransition normalized acc tr).2
      (normalized ++ "::TRANS::" ++ tr.triggerLabel)
      (optClickEdge (normalized ++ "::TRANS::" ++ tr.triggerLabel) opt) ∧
    MemEntry (processTransition normalized acc tr).2
      ((normalized ++ "::TRANS::" ++ tr.triggerLabel) ++ "::OPT::" ++ opt)
      (optTargetEdge normalized (acc.1 ++ [trEdgeOf normalized tr]) opt) := by
  rw [processTransition, if_neg htr]
  dsimp only
  exact addOption_fold_content normalized _ _ (combinedOf tr) _ opt hopt hne

/-- The transition-node entry exists after processing a transition with a
non-empty trigger (even when it has no options at all). -/
theorem processTransition_node_exists (normalized : String)
    (acc : List Edge × Record (List Edge)) (tr : Transition)
    (htr : tr.triggerLabel ≠ "") :
    ∃ l, recordGet (processTransition normalized acc tr).2
      (normalized ++ "::TRANS::" ++ tr.triggerLabel) = some l := by
  rw [processTransition, if_neg htr]
  dsimp only
  have hbase : ∃ l, recordGet
      (if (recordGet acc.2 (normalized ++ "::TRANS::" ++ tr.triggerLabel)).isSome
       then acc.2
       else recordSet acc.2 (normalized ++ "::TRANS::" ++ tr.triggerLabel) [])
      (normalized ++ "::TRANS::" ++ tr.triggerLabel) = some l := by
    split
    next hs =>
      rcases hrg : recordGet acc.2 (normalized ++ "::TRANS::" ++ tr.triggerLabel)
        with _ | v
      · rw [hrg] at hs
        cases hs
      · exact ⟨v, rfl⟩
    next => exact ⟨[], recordGet_set_self _ _ _⟩
  obtain ⟨l, hl⟩ := hbase
  obtain ⟨suf, hsuf⟩ := addOption_fold_ext normalized _ _ (combinedOf tr) _ _ l hl
  exact ⟨l ++ suf, hsuf⟩

/-- A transition with an empty delta creates its node with no option
edges and touches no other key. -/
theorem processTransition_empty_delta (normalized : String)
    (acc : List Edge × Record (List Edge)) (tr : Transition)
    (htr : tr.triggerLabel ≠ "") (ha : tr.added = []) (hr : tr.removed = []) :
    recordGet (processTransition normalized acc tr).2
        (normalized ++ "::TRANS::" ++ tr.triggerLabel) =
      some ((recordGet acc.2 (normalized ++ "::TRANS::" ++ tr.triggerLabel)).getD []) ∧
    ∀ k, k ≠ normalized ++ "::TRANS::" ++ tr.triggerLabel →
      recordGet (processTransition normalized acc tr).2 k = recordGet acc.2 k := by
  have hcomb : combinedOf tr = [] := by
    simp [combinedOf, ha, hr, dedup]
  rw [processTransition, if_neg htr]
  dsimp only
  rw [hcomb]
  simp only [List.foldl_nil]
  constructor
  · split
    next hs =>
      rcases hrg : recordGet acc.2 (normalized ++ "::TRANS::" ++ tr.triggerLabel)
        with _ | v
      · rw [hrg] at hs
        cases hs
      · rfl
    next hs =>
      rcases hrg : recordGet acc.2 (normalized ++ "::TRANS::" ++ tr.triggerLabel)
        with _ | v
      · rw [recordGet_set_self]
        rfl
      · rw [hrg] at hs
        simp at hs
  · intro k hk
    split
    next => rfl
    next => rw [recordGet_set_other _ _ _ hk]

/-! ## Putting the page together -/

theorem navMatchIn_append_trans (edges extra : List Edge) (opt : String)
    (hextra : ∀ e ∈ extra, e.type = EdgeType.transition) :
    navMatchIn (edges ++ extra) opt = navMatchIn edges opt := by
  rw [navMatchIn, navMatchIn, List.find?_append]
  cases hf : edges.find? fun e =>
      e.type == EdgeType.navigate && e.label != "" &&
        toLowerStr e.label == toLowerStr opt with
  | some e => rfl
  | none =>
    show Option.or none _ = none
    rw [Option.none_or]
    rw [List.find?_eq_none]
    intro e he
    rw [hextra e he]
    simp

theorem trEdges_types (normalized : String) (ts : List Transition) :
    ∀ e ∈ trEdges normalized ts, e.type = EdgeType.transition := by
  intro e he
  rw [trEdges, List.mem_filterMap] at he
  obtain ⟨tr, _, htr⟩ := he
  by_cases h : tr.triggerLabel = ""
  · rw [if_pos h] at htr
    cases htr
  · rw [if_neg h] at htr
    rw [Option.some_inj] at htr
    rw [← htr]
    rfl

theorem optTargetEdge_append_trans (normalized : String) (edges extra : List Edge)
    (opt : String) (hextra : ∀ e ∈ extra, e.type = EdgeType.transition) :
    optTargetEdge normalized (edges ++ extra) opt =
      optTargetEdge normalized edges opt := by
  rw [optTargetEdge, optTargetEdge, navMatchIn_append_trans edges extra opt hextra]

theorem processTransition_fold_content (normalized : String) :
    ∀ (ts : List Transition) (acc : List Edge × Record (List Edge))
      (tr : Transition) (opt : String), tr ∈ ts → tr.triggerLabel ≠ "" →
      opt ∈ combinedOf tr → opt ≠ "" →
      MemEntry (ts.foldl (processTransition normalized) acc).2
        (normalized ++ "::TRANS::" ++ tr.triggerLabel)
        (optClickEdge (normalized ++ "::TRANS::" ++ tr.triggerLabel) opt) ∧
      MemEntry (ts.foldl (processTransition normalized) acc).2
        ((normalized ++ "::TRANS::" ++ tr.triggerLabel) ++ "::OPT::" ++ opt)
        (optTargetEdge normalized acc.1 opt)
  | [], _, _, _, h, _, _, _ => absurd h (List.not_mem_nil _)
  | o :: ts, acc, tr, opt, h, htr, hopt, hne => by
    rw [List.foldl_cons]
    rcases List.mem_cons.mp h with rfl | h'
    · have hc := processTransition_content normalized acc tr htr opt hopt hne
      have hrw : optTargetEdge normalized (acc.1 ++ [trEdgeOf normalized tr]) opt =
          optTargetEdge normalized acc.1 opt := by
        refine optTargetEdge_append_trans normalized acc.1 _ opt ?_
        intro e he
        rcases List.mem_singleton.mp he with rfl
        rfl
      rw [hrw] at hc
      exact ⟨hc.1.mono (processTransition_fold_ext normalized ts _),
             hc.2.mono (processTransition_fold_ext normalized ts _)⟩
    · have := processTransition_fold_content normalized ts
        (processTransition normalized acc o) tr opt h' htr hopt hne
      have hfst := processTransition_fst normalized acc o
      have hrw : optTargetEdge normalized (processTransition normalized acc o).1 opt =
          optTargetEdge normalized acc.1 opt := by
        rw [hfst]
        exact optTargetEdge_append_trans normalized acc.1 _ opt
          (trEdges_types normalized [o])
      rw [hrw] at this
      exact this

theorem processTransition_fold_node_exists (normalized : String) :
    ∀ (ts : List Transition) (acc : List Edge × Record (List Edge))
      (tr : Transition), tr ∈ ts → tr.triggerLabel ≠ "" →
      ∃ l, recordGet (ts.foldl (processTransition normalized) acc).2
        (normalized ++ "::TRANS::" ++ tr.triggerLabel) = some l
  | [], _, _, h, _ => absurd h (List.not_mem_nil _)
  | o :: ts, acc, tr, h, htr => by
    rw [List.foldl_cons]
    rcases List.mem_cons.mp h with rfl | h'
    · obtain ⟨l, hl⟩ := processTransition_node_exists normalized acc tr htr
      obtain ⟨suf, hsuf⟩ := processTransition_fold_ext normalized ts
        (processTransition normalized acc tr) _ l hl
      exact ⟨l ++ suf, hsuf⟩
    · exact processTransition_fold_node_exists normalized ts _ tr h' htr

/-- The action edges of a page before the transition loop. -/
def pageActionEdges (so : Bool) (bo : Option String) (visited : List String)
    (normalized : String) (actions : List Action) : List Edge :=
  (actions.foldl (processAction so bo visited normalized) ([], [])).2

/-- The next-layer URLs a page contributes. -/
def pageNextUrls (so : Bool) (bo : Option String) (visited : List String)
    (normalized : String) (actions : List Action) : List String :=
  (actions.foldl (processAction so bo visited normalized) ([], [])).1

theorem buildPage_nextUrls (so : Bool) (bo : Option String)
    (visited : List String) (aG : Record (List Edge)) (normalized : String)
    (actions : List Action) (transitions : List Transition) (t : String) :
    t ∈ (buildPage so bo visited aG normalized actions transitions).nextUrls ↔
      ∃ a ∈ actions, ActionNext so bo visited normalized a t := by
  rw [buildPage]
  dsimp only
  rw [processAction_fold_mem_next]
  simp

theorem pageActionEdges_no_transition (so : Bool) (bo : Option String)
    (visited : List String) (normalized : String) (actions : List Action) :
    ∀ e ∈ pageActionEdges so bo visited normalized actions,
      e.type ≠ EdgeType.transition := by
  intro e he
  rw [pageActionEdges, processAction_fold_mem_edges] at he
  rcases he with h | ⟨a, _, hc⟩
  · cases h
  · rcases hc with ⟨_, abs, _, _, rfl⟩ | ⟨_, rfl⟩
    · rw [navEdgeOf]
      simp
    · rw [selfEdgeOf]
      cases a.type <;> simp [ActionType.toEdgeType]

theorem mem_transitionLabels {l : List Edge} {lab : String} :
    lab ∈ transitionLabels l ↔
      ∃ e ∈ l, e.type = EdgeType.transition ∧ e.label = lab := by
  rw [transitionLabels]
  simp only [List.mem_map, List.mem_filter, beq_iff_eq]
  constructor
  · rintro ⟨e, ⟨he, ht⟩, rfl⟩
    exact ⟨e, he, ht, rfl⟩
  · rintro ⟨e, he, ht, rfl⟩
    exact ⟨e, ⟨he, ht⟩, rfl⟩

theorem mem_trEdges {normalized : String} {ts : List Transition} {e : Edge} :
    e ∈ trEdges normalized ts ↔
      ∃ tr ∈ ts, tr.triggerLabel ≠ "" ∧ e = trEdgeOf normalized tr := by
  rw [trEdges]
  simp only [List.mem_filterMap]
  constructor
  · rintro ⟨tr, htr, hsome⟩
    by_cases h : tr.triggerLabel = ""
    · rw [if_pos h] at hsome
      cases hsome
    · rw [if_neg h, Option.some_inj] at hsome
      exact ⟨tr, htr, h, hsome.symm⟩
  · rintro ⟨tr, htr, h, rfl⟩
    exact ⟨tr, htr, by rw [if_neg h]⟩

theorem buildPage_fulledges (so : Bool) (bo : Option String)
    (visited : List String) (aG : Record (List Edge)) (normalized : String)
    (actions : List Action) (transitions : List Transition) :
    ((actions.foldl (processAction so bo visited normalized) ([], [])).2 |>.append
      (trEdges normalized transitions)) =
      (transitions.foldl (processTransition normalized)
        ((actions.foldl (processAction so bo visited normalized) ([], [])).2, aG)).1 := by
  rw [processTransition_fold_fst]
  rfl

theorem keep_iff (tls : List String) (e : Edge) :
    (!(e.type != EdgeType.navigate && e.type != EdgeType.transition &&
       tls.contains e.label)) = true ↔
    ¬(e.type ≠ EdgeType.navigate ∧ e.type ≠ EdgeType.transition ∧
      e.label ∈ tls) := by
  simp [not_and, List.elem_iff, -Bool.not_eq_true]
  tauto

theorem buildPage_filtered_mem (so : Bool) (bo : Option String)
    (visited : List String) (aG : Record (List Edge)) (normalized : String)
    (actions : List Action) (transitions : List Transition) (e : Edge) :
    e ∈ (buildPage so bo visited aG normalized actions transitions).filteredEdges ↔
      (e ∈ pageActionEdges so bo visited normalized actions ∨
        e ∈ trEdges normalized transitions) ∧
      ¬(e.type ≠ EdgeType.navigate ∧ e.type ≠ EdgeType.transition ∧
        e.label ∈ transitionLabels (pageActionEdges so bo visited normalized actions
          ++ trEdges normalized transitions)) := by
  rw [buildPage]
  dsimp only
  rw [List.mem_filter, processTransition_fold_fst]
  dsimp only
  rw [keep_iff, List.mem_append]
  rfl

theorem buildPage_actionGraph_ext (so : Bool) (bo : Option String)
    (visited : List String) (aG : Record (List Edge)) (normalized : String)
    (actions : List Action) (transitions : List Transition) :
    RecExt aG (buildPage so bo visited aG normalized actions transitions).actionGraph := by
  rw [buildPage]
  dsimp only
  exact processTransition_fold_ext normalized transitions
    ((actions.foldl (processAction so bo visited normalized) ([], [])).2, aG)

theorem buildPage_actionGraph_content (so : Bool) (bo : Option String)
    (visited : List String) (aG : Record (List Edge)) (normalized : String)
    (actions : List Action) (transitions : List Transition)
    (tr : Transition) (htr : tr ∈ transitions) (hlab : tr.triggerLabel ≠ "")
    (opt : String) (hopt : opt ∈ combinedOf tr) (hne : opt ≠ "") :
    MemEntry (buildPage so bo visited aG normalized actions transitions).actionGraph
      (normalized ++ "::TRANS::" ++ tr.triggerLabel)
      (optClickEdge (normalized ++ "::TRANS::" ++ tr.triggerLabel) opt) ∧
    MemEntry (buildPage so bo visited aG normalized actions transitions).actionGraph
      ((normalized ++ "::TRANS::" ++ tr.triggerLabel) ++ "::OPT::" ++ opt)
      (optTargetEdge normalized (pageActionEdges so bo visited normalized actions)
        opt) := by
  rw [buildPage]
  dsimp only
  exact processTransition_fold_content normalized transitions
    ((actions.foldl (processAction so bo visited normalized) ([], [])).2, aG)
    tr opt htr hlab hopt hne

theorem buildPage_node_exists (so : Bool) (bo : Option String)
    (visited : List String) (aG : Record (List Edge)) (normalized : String)
    (actions : List Action) (transitions : List Transition)
    (tr : Transition) (htr : tr ∈ transitions) (hlab : tr.triggerLabel ≠ "") :
    ∃ l, recordGet
      (buildPage so bo visited aG normalized actions transitions).actionGraph
      (normalized ++ "::TRANS::" ++ tr.triggerLabel) = some l := by
  rw [buildPage]
  dsimp only
  exact processTransition_fold_node_exists normalized transitions
    ((actions.foldl (processAction so bo visited normalized) ([], [])).2, aG)
    tr htr hlab

/-! ## Merging one visit -/

/-- The page record a merged visit appends. -/
def pageOf (input : Frontier) (res : VisitRes) : PageVisit :=
  { url := res.normalized, title := res.title, depth := input.depth,
    actions := res.actions }

theorem mergeVisit_skip (so : Bool) (md : Nat) (st : CrawlState)
    (cands : List Frontier) (input : Frontier) (res : VisitRes)
    (h : st.visited.contains res.normalized = true) :
    mergeVisit so md st cands input res = (st, cands) := by
  rw [mergeVisit, if_pos h]

theorem mergeVisit_new (so : Bool) (md : Nat) (st : CrawlState)
    (cands : List Frontier) (input : Frontier) (res : VisitRes)
    (h : st.visited.contains res.normalized = false) :
    mergeVisit so md st cands input res =
      (let pb := buildPage so input.origin (res.normalized :: st.visited)
        st.actionGraph res.normalized res.actions res.transitions
       ({ visited := res.normalized :: st.visited,
          pages := st.pages ++ [pageOf input res],
          graph := recordSet st.graph res.normalized pb.nextUrls,
          actionGraph := recordSet pb.actionGraph res.normalized
            ((recordGet pb.actionGraph res.normalized).getD [] ++
              pb.filteredEdges) },
        if input.depth + 1 ≤ md then
          cands ++ pb.nextUrls.map (fun nurl =>
            { url := nurl, depth := input.depth + 1, origin := input.origin })
        else cands)) := by
  rw [mergeVisit, if_neg (by rw [h]; exact Bool.false_ne_true)]
  rfl

/-! ## Crawl-level preservation machinery -/

theorem mergeOutcome_preserve (so : Bool) (md : Nat) (P : CrawlState → Prop)
    (R : Frontier → VisitRes → Prop)
    (hP : ∀ st cands input res, R input res → P st →
      P (mergeVisit so md st cands input res).1)
    (acc : CrawlState × List Frontier) (r : Frontier × Option VisitRes)
    (hR : ∀ res, r.2 = some res → R r.1 res) (h : P acc.1) :
    P (mergeOutcome so md acc r).1 := by
  rw [mergeOutcome]
  cases hr2 : r.2 with
  | none => exact h
  | some res => exact hP acc.1 acc.2 r.1 res (hR res hr2) h

theorem processResults_preserve (so : Bool) (md : Nat) (P : CrawlState → Prop)
    (R : Frontier → VisitRes → Prop)
    (hP : ∀ st cands input res, R input res → P st →
      P (mergeVisit so md st cands input res).1) :
    ∀ (rs : List (Frontier × Option VisitRes)) (acc : CrawlState × List Frontier),
      (∀ r ∈ rs, ∀ res, r.2 = some res → R r.1 res) → P acc.1 →
      P (processResults so md acc rs).1
  | [], _, _, h => h
  | r :: rs, acc, hR, h => by
    rw [processResults, List.foldl_cons]
    exact processResults_preserve so md P R hP rs _
      (fun r' hr' => hR r' (List.mem_cons_of_mem r hr'))
      (mergeOutcome_preserve so md P R hP acc r (hR r (List.mem_cons_self r rs)) h)

theorem runLayer_preserve (W : VisitOracle) (so : Bool) (md : Nat)
    (dt : Bool) (tpp conc : Nat) (P : CrawlState → Prop) (Q : Frontier → Prop)
    (hP : ∀ st cands input res, Q input → visit W input.url dt tpp = some res →
      P st → P (mergeVisit so md st cands input res).1) :
    ∀ (fuel : Nat) (toVisit : List Frontier) (acc : CrawlState × List Frontier),
      (∀ f ∈ toVisit, Q f) → P acc.1 →
      P (runLayer W so md dt tpp conc fuel toVisit acc).1
  | 0, _, _, _, h => by rw [runLayer]; exact h
  | _ + 1, [], _, _, h => h
  | fuel + 1, f₀ :: toVisit, acc, hQ, h => by
    rw [runLayer]
    refine runLayer_preserve W so md dt tpp conc P Q hP fuel _ _
      (fun f hf => hQ f (List.mem_of_mem_drop hf)) ?_
    refine processResults_preserve so md P
      (fun input res => Q input ∧ visit W input.url dt tpp = some res) ?_ _ _ ?_ h
    · exact fun st cands input res hr hp => hP st cands input res hr.1 hr.2 hp
    · intro r hr res hres
      rw [List.mem_map] at hr
      obtain ⟨f, hf, rfl⟩ := hr
      exact ⟨hQ f (List.mem_of_mem_take hf), hres⟩

theorem crawlLoop_preserve (W : VisitOracle) (so : Bool) (md mp conc : Nat)
    (dt : Bool) (tpp : Nat) (P : CrawlState → Prop)
    (hP : ∀ st cands input res, visit W input.url dt tpp = some res →
      P st → P (mergeVisit so md st cands input res).1) :
    ∀ (fuel depth : Nat) (st : CrawlState) (frontier : List Frontier),
      P st → P (crawlLoop W so md mp conc dt tpp fuel depth st frontier)
  | 0, _, _, _, h => h
  | fuel + 1, depth, st, frontier, h => by
    rw [crawlLoop]
    split
    · dsimp only
      split
      · exact crawlLoop_preserve W so md mp conc dt tpp P hP fuel _ _ _ h
      · refine crawlLoop_preserve W so md mp conc dt tpp P hP fuel _ _ _ ?_
        exact runLayer_preserve W so md dt tpp conc P (fun _ => True)
          (fun st cands input res _ => hP st cands input res) _ _ _
          (fun _ _ => trivial) h
    · exact h

/-- The final crawl state. -/
def crawlState (W : VisitOracle) (options : CrawlOptions) : CrawlState :=
  crawlLoop W (options.sameOrigin.getD true) (options.maxDepth.getD 1)
    (options.maxPages.getD 50) (max 1 (min (options.concurrency.getD 3) 10))
    (options.discoverTransitions.getD true)
    (max 0 (min (options.transitionsPerPage.getD 12) 50))
    (options.maxDepth.getD 1 + 1) 0 ⟨[], [], [], []⟩
    (options.seeds.map fun s =>
      { url := normalizeUrl s, depth := 0, origin := (parseUrl s).map Url.origin })

theorem crawl_eq_state (W : VisitOracle) (options : CrawlOptions) :
    crawl W options = { pages := (crawlState W options).pages,
                        graph := (crawlState W options).graph,
                        actionGraph := (crawlState W options).actionGraph } := rfl

/-! ## C4: one page per canonical URL -/

/-- The visited-set invariant: page URLs are distinct and all claimed. -/
def PagesInv (st : CrawlState) : Prop :=
  (st.pages.map PageVisit.url).Nodup ∧ ∀ p ∈ st.pages, p.url ∈ st.visited

theorem mergeVisit_pagesInv (so : Bool) (md : Nat) (st : CrawlState)
    (cands : List Frontier) (input : Frontier) (res : VisitRes)
    (h : PagesInv st) : PagesInv (mergeVisit so md st cands input res).1 := by
  cases hv : st.visited.contains res.normalized with
  | true =>
    rw [mergeVisit_skip so md st cands input res hv]
    exact h
  | false =>
    rw [mergeVisit_new so md st cands input res hv]
    dsimp only
    obtain ⟨hnd, hsub⟩ := h
    have hnotmem : res.normalized ∉ st.visited := by simpa using hv
    constructor
    · rw [List.map_append, List.nodup_append]
      refine ⟨hnd, List.nodup_singleton _, ?_⟩
      intro x hx hy
      rw [List.map_singleton, List.mem_singleton] at hy
      subst hy
      rw [List.mem_map] at hx
      obtain ⟨p, hp, hurl⟩ := hx
      have hurl' : p.url = res.normalized := hurl
      exact hnotmem (hurl' ▸ hsub p hp)
    · intro p hp
      rcases List.mem_append.mp hp with hp' | hp'
      · exact List.mem_cons_of_mem _ (hsub p hp')
      · rcases List.mem_singleton.mp hp' with rfl
        exact List.mem_cons_self _ _

/-- **C4.**  No two entries of `pages` share a canonical URL: the visited
set is claimed once per canonical URL, re-checked as each visit's result is
merged, and never revisited. -/
theorem C4_pages_unique (W : VisitOracle) (options : CrawlOptions) :
    ((crawl W options).pages.map PageVisit.url).Nodup := by
  rw [crawl_eq_state]
  have h := crawlLoop_preserve W (options.sameOrigin.getD true)
    (options.maxDepth.getD 1) (options.maxPages.getD 50)
    (max 1 (min (options.concurrency.getD 3) 10))
    (options.discoverTransitions.getD true)
    (max 0 (min (options.transitionsPerPage.getD 12) 50)) PagesInv
    (fun st cands input res _ hp => mergeVisit_pagesInv _ _ st cands input res hp)
    (options.maxDepth.getD 1 + 1) 0 ⟨[], [], [], []⟩
    (options.seeds.map fun s =>
      { url := normalizeUrl s, depth := 0, origin := (parseUrl s).map Url.origin })
    ⟨List.nodup_nil, fun _ h => absurd h (List.not_mem_nil _)⟩
  exact h.1

/-! ## C5: page and depth budgets -/

theorem mergeOutcome_pages_le (so : Bool) (md : Nat)
    (acc : CrawlState × List Frontier) (r : Frontier × Option VisitRes) :
    (mergeOutcome so md acc r).1.pages.length ≤ acc.1.pages.length + 1 := by
  cases hr2 : r.2 with
  | none =>
    rw [mergeOutcome_none so md acc r hr2]
    exact Nat.le_succ _
  | some res =>
    rw [mergeOutcome_some so md acc r res hr2]
    cases hv : acc.1.visited.contains res.normalized with
    | true =>
      rw [mergeVisit_skip _ _ _ _ _ _ hv]
      exact Nat.le_succ _
    | false =>
      rw [mergeVisit_new _ _ _ _ _ _ hv]
      simp

theorem mergeOutcome_pages_sub (so : Bool) (md : Nat)
    (acc : CrawlState × List Frontier) (r : Frontier × Option VisitRes)
    (p : PageVisit) (hp : p ∈ (mergeOutcome so md acc r).1.pages) :
    p ∈ acc.1.pages ∨ p.depth = r.1.depth := by
  cases hr2 : r.2 with
  | none =>
    rw [mergeOutcome_none so md acc r hr2] at hp
    exact Or.inl hp
  | some res =>
    rw [mergeOutcome_some so md acc r res hr2] at hp
    cases hv : acc.1.visited.contains res.normalized with
    | true =>
      rw [mergeVisit_skip _ _ _ _ _ _ hv] at hp
      exact Or.inl hp
    | false =>
      rw [mergeVisit_new _ _ _ _ _ _ hv] at hp
      dsimp only at hp
      rcases List.mem_append.mp hp with h | h
      · exact Or.inl h
      · rcases List.mem_singleton.mp h with rfl
        exact Or.inr rfl

theorem processResults_pages_le (so : Bool) (md : Nat) :
    ∀ (rs : List (Frontier × Option VisitRes)) (acc : CrawlState × List Frontier),
      (processResults so md acc rs).1.pages.length ≤ acc.1.pages.length + rs.length
  | [], acc => Nat.le_refl _
  | r :: rs, acc => by
    rw [processResults, List.foldl_cons]
    calc (processResults so md (mergeOutcome so md acc r) rs).1.pages.length
        ≤ (mergeOutcome so md acc r).1.pages.length + rs.length :=
          processResults_pages_le so md rs _
      _ ≤ (acc.1.pages.length + 1) + rs.length :=
          Nat.add_le_add_right (mergeOutcome_pages_le so md acc r) _
      _ = acc.1.pages.length + (r :: rs).length := by
          rw [List.length_cons]
          omega

theorem processResults_pages_sub (so : Bool) (md : Nat) :
    ∀ (rs : List (Frontier × Option VisitRes)) (acc : CrawlState × List Frontier)
      (p : PageVisit), p ∈ (processResults so md acc rs).1.pages →
      p ∈ acc.1.pages ∨ ∃ r ∈ rs, p.depth = r.1.depth
  | [], _, _, hp => Or.inl hp
  | r :: rs, acc, p, hp => by
    rw [processResults, List.foldl_cons] at hp
    rcases processResults_pages_sub so md rs _ p hp with h | ⟨r', hr', hd⟩
    · rcases mergeOutcome_pages_sub so md acc r p h with h' | h'
      · exact Or.inl h'
      · exact Or.inr ⟨r, List.mem_cons_self r rs, h'⟩
    · exact Or.inr ⟨r', List.mem_cons_of_mem r hr', hd⟩

theorem runLayer_pages_le (W : VisitOracle) (so : Bool) (md : Nat) (dt : Bool)
    (tpp conc : Nat) :
    ∀ (fuel : Nat) (toVisit : List Frontier) (acc : CrawlState × List Frontier),
      (runLayer W so md dt tpp conc fuel toVisit acc).1.pages.length ≤
        acc.1.pages.length + toVisit.length
  | 0, _, _ => by rw [runLayer]; exact Nat.le_add_right _ _
  | _ + 1, [], _ => Nat.le_add_right _ _
  | fuel + 1, f₀ :: toVisit, acc => by
    rw [runLayer]
    calc (runLayer W so md dt tpp conc fuel ((f₀ :: toVisit).drop conc)
            (processResults so md acc (((f₀ :: toVisit).take conc).map fun f =>
              (f, visit W f.url dt tpp)))).1.pages.length
        ≤ (processResults so md acc (((f₀ :: toVisit).take conc).map fun f =>
            (f, visit W f.url dt tpp))).1.pages.length +
            ((f₀ :: toVisit).drop conc).length :=
          runLayer_pages_le W so md dt tpp conc fuel _ _
      _ ≤ (acc.1.pages.length + (((f₀ :: toVisit).take conc).map fun f =>
            (f, visit W f.url dt tpp)).length) + ((f₀ :: toVisit).drop conc).length :=
          Nat.add_le_add_right (processResults_pages_le so md _ _) _
      _ ≤ acc.1.pages.length + (f₀ :: toVisit).length := by
          rw [List.length_map, List.length_take, List.length_drop]
          omega

theorem runLayer_pages_sub (W : VisitOracle) (so : Bool) (md : Nat) (dt : Bool)
    (tpp conc : Nat) :
    ∀ (fuel : Nat) (toVisit : List Frontier) (acc : CrawlState × List Frontier)
      (p : PageVisit), p ∈ (runLayer W so md dt tpp conc fuel toVisit acc).1.pages →
      p ∈ acc.1.pages ∨ ∃ f ∈ toVisit, p.depth = f.depth
  | 0, _, _, _, hp => by rw [runLayer] at hp; exact Or.inl hp
  | _ + 1, [], _, _, hp => Or.inl hp
  | fuel + 1, f₀ :: toVisit, acc, p, hp => by
    rw [runLayer] at hp
    rcases runLayer_pages_sub W so md dt tpp conc fuel _ _ p hp with h | ⟨f, hf, hd⟩
    · rcases processResults_pages_sub so md _ _ p h with h' | ⟨r, hr, hd⟩
      · exact Or.inl h'
      · rw [List.mem_map] at hr
        obtain ⟨f, hf, rfl⟩ := hr
        exact Or.inr ⟨f, List.mem_of_mem_take hf, hd⟩
    · exact Or.inr ⟨f, List.mem_of_mem_drop hf, hd⟩

theorem crawlLoop_budget (W : VisitOracle) (so : Bool) (md mp conc : Nat)
    (dt : Bool) (tpp : Nat) :
    ∀ (fuel depth : Nat) (st : CrawlState) (frontier : List Frontier),
      st.pages.length ≤ mp → (∀ p ∈ st.pages, p.depth ≤ md) →
      (crawlLoop W so md mp conc dt tpp fuel depth st frontier).pages.length ≤ mp ∧
      ∀ p ∈ (crawlLoop W so md mp conc dt tpp fuel depth st frontier).pages,
        p.depth ≤ md
  | 0, _, _, _, h1, h2 => ⟨h1, h2⟩
  | fuel + 1, depth, st, frontier, h1, h2 => by
    rw [crawlLoop]
    split
    case isFalse => exact ⟨h1, h2⟩
    case isTrue hguard =>
      dsimp only
      split
      case isTrue => exact crawlLoop_budget W so md mp conc dt tpp fuel _ _ _ h1 h2
      case isFalse =>
        refine crawlLoop_budget W so md mp conc dt tpp fuel _ _ _ ?_ ?_
        · refine le_trans (runLayer_pages_le W so md dt tpp conc _ _ _) ?_
          have hlt : st.pages.length < mp := hguard.2.2
          have hlen : (List.take (mp - st.pages.length)
              (List.filter (fun f => !st.visited.contains f.url)
                (List.filter (fun f => f.depth == depth) frontier))).length ≤
              mp - st.pages.length := by
            rw [List.length_take]
            omega
          dsimp only
          omega
        · intro p hp
          rcases runLayer_pages_sub W so md dt tpp conc _ _ _ p hp with h | ⟨f, hf, hd⟩
          · exact h2 p h
          · have hf2 := List.mem_of_mem_take hf
            rw [List.mem_filter] at hf2
            have hf3 := hf2.1
            rw [List.mem_filter] at hf3
            have : f.depth = depth := by simpa using hf3.2
            rw [hd, this]
            exact hguard.1

/-- **C5.**  Every crawl returns at most `maxPages` pages, each with depth
at most `maxDepth`. -/
theorem C5_budgets (W : VisitOracle) (options : CrawlOptions) :
    (crawl W options).pages.length ≤ options.maxPages.getD 50 ∧
    ∀ p ∈ (crawl W options).pages, p.depth ≤ options.maxDepth.getD 1 := by
  rw [crawl_eq_state]
  exact crawlLoop_budget W (options.sameOrigin.getD true)
    (options.maxDepth.getD 1) (options.maxPages.getD 50)
    (max 1 (min (options.concurrency.getD 3) 10))
    (options.discoverTransitions.getD true)
    (max 0 (min (options.transitionsPerPage.getD 12) 50))
    (options.maxDepth.getD 1 + 1) 0 ⟨[], [], [], []⟩ _
    (Nat.zero_le _) (fun _ h => absurd h (List.not_mem_nil _))

/-- **C8.**  A rejected visit promise anywhere in a chunk's settled results
is a no-op on the merge: the other results are still merged exactly as if
the failed entry were absent, so a failed visit contributes no page, no
graph or actionGraph entry, and no visited-set addition, and the crawl
continues normally. -/
theorem C8_failure_dropped :
    (∀ (so : Bool) (md : Nat) (acc : CrawlState × List Frontier)
      (xs ys : List (Frontier × Option VisitRes)) (input : Frontier),
      processResults so md acc (xs ++ (input, none) :: ys) =
        processResults so md acc (xs ++ ys)) ∧
    (∀ (so : Bool) (md : Nat) (acc : CrawlState × List Frontier)
      (input : Frontier), mergeOutcome so md acc (input, none) = acc) := by
  constructor
  · intro so md acc xs ys input
    rw [processResults, processResults, List.foldl_append, List.foldl_append,
        List.foldl_cons, mergeOutcome_none so md _ _ rfl]
  · intro so md acc input
    exact mergeOutcome_none so md acc (input, none) rfl

/-- Witness for C8 at a concrete chunk: a failed middle entry leaves the
merge of its two siblings unchanged. -/
theorem C8_witness :
    processResults true 1 (⟨[], [], [], []⟩, [])
        ([({ url := "https://a.com/", depth := 0, origin := some "https://a.com" },
            none)] ++
          (({ url := "https://a.com/x", depth := 0, origin := some "https://a.com" },
             none) :: [])) =
      processResults true 1 (⟨[], [], [], []⟩, [])
        ([({ url := "https://a.com/", depth := 0, origin := some "https://a.com" },
            none)] ++ []) :=
  C8_failure_dropped.1 true 1 (⟨[], [], [], []⟩, []) _ []
    { url := "https://a.com/x", depth := 0, origin := some "https://a.com" }

/-! ## C10: the legacy graph records only unvisited same-origin targets -/

/-- **C10.**  When a page is merged (`sameOrigin` on, seed-chain origin
known), its `graph` entry is exactly `nextUrls`; every entry of `nextUrls`
is a resolved, canonicalized, same-origin navigate target that was not in
the visited set (which already includes the page itself); and a navigate
action whose target was already visited still records its navigate edge in
the page's `actionGraph` entry while its target is absent from `nextUrls` —
so `graph` is not the full navigate adjacency. -/
theorem C10_graph_unvisited_only (so : Bool) (md : Nat) (st : CrawlState)
    (cands : List Frontier) (input : Frontier) (res : VisitRes) (bo : String)
    (hvis : st.visited.contains res.normalized = false)
    (hso : so = true) (hbo : input.origin = some bo) :
    recordGet (mergeVisit so md st cands input res).1.graph res.normalized =
      some (buildPage so input.origin (res.normalized :: st.visited) st.actionGraph
        res.normalized res.actions res.transitions).nextUrls ∧
    (∀ t ∈ (buildPage so input.origin (res.normalized :: st.visited) st.actionGraph
        res.normalized res.actions res.transitions).nextUrls,
      t ∉ (res.normalized :: st.visited) ∧ originOk true (some bo) t = true ∧
      ∃ a ∈ res.actions, a.type = ActionType.navigate ∧ ∃ abs,
        resolveHref res.normalized a.href = some abs ∧ t = normalizeUrl abs) ∧
    (∀ a ∈ res.actions, a.type = ActionType.navigate → ∀ abs,
      resolveHref res.normalized a.href = some abs →
      originOk so input.origin (normalizeUrl abs) = true →
      (res.normalized :: st.visited).contains (normalizeUrl abs) = true →
      (navEdgeOf a (normalizeUrl abs) ∈
        (buildPage so input.origin (res.normalized :: st.visited) st.actionGraph
          res.normalized res.actions res.transitions).filteredEdges ∧
       normalizeUrl abs ∉
        (buildPage so input.origin (res.normalized :: st.visited) st.actionGraph
          res.normalized res.actions res.transitions).nextUrls)) := by
  subst hso
  refine ⟨?_, ?_, ?_⟩
  · rw [mergeVisit_new _ _ _ _ _ _ hvis]
    exact recordGet_set_self _ _ _
  · intro t ht
    rw [buildPage_nextUrls] at ht
    obtain ⟨a, ha, hnav, abs, habs, rfl, hok, hnvis⟩ := ht
    rw [hbo] at hok
    refine ⟨by simpa using hnvis, hok, a, ha, hnav, abs, habs, rfl⟩
  · intro a ha hnav abs habs hok hmem
    constructor
    · rw [buildPage_filtered_mem]
      refine ⟨Or.inl ?_, ?_⟩
      · rw [pageActionEdges, processAction_fold_mem_edges]
        exact Or.inr ⟨a, ha, Or.inl ⟨hnav, abs, habs, hok, rfl⟩⟩
      · rintro ⟨h1, _, _⟩
        exact h1 rfl
    · rw [buildPage_nextUrls]
      rintro ⟨a', _, _, abs', _, _, _, hnvis⟩
      rw [hmem] at hnvis
      cases hnvis

/-! ## C7: self-loops shadowed by a transition trigger are suppressed -/

/-- **C7.**  In the edges a merged page contributes to its `actionGraph`
entry (`filteredEdges`, appended to any pre-existing entry): every
click/toggle edge whose label is the trigger label of one of the page's
transition edges is dropped, while navigate and transition edges are always
kept. -/
theorem C7_selfloop_suppressed (so : Bool) (md : Nat) (st : CrawlState)
    (cands : List Frontier) (input : Frontier) (res : VisitRes)
    (hvis : st.visited.contains res.normalized = false) :
    (∃ prior, recordGet (mergeVisit so md st cands input res).1.actionGraph
        res.normalized =
      some (prior ++ (buildPage so input.origin (res.normalized :: st.visited)
        st.actionGraph res.normalized res.actions res.transitions).filteredEdges)) ∧
    (∀ e, e ∈ pageActionEdges so input.origin (res.normalized :: st.visited)
          res.normalized res.actions ∨
        e ∈ trEdges res.normalized res.transitions →
      (e.type = EdgeType.navigate ∨ e.type = EdgeType.transition) →
      e ∈ (buildPage so input.origin (res.normalized :: st.visited) st.actionGraph
        res.normalized res.actions res.transitions).filteredEdges) ∧
    (∀ e, e ∈ pageActionEdges so input.origin (res.normalized :: st.visited)
          res.normalized res.actions ∨
        e ∈ trEdges res.normalized res.transitions →
      (e.type = EdgeType.click ∨ e.type = EdgeType.toggle) →
      e.label ∈ transitionLabels
        (pageActionEdges so input.origin (res.normalized :: st.visited)
          res.normalized res.actions ++ trEdges res.normalized res.transitions) →
      e ∉ (buildPage so input.origin (res.normalized :: st.visited) st.actionGraph
        res.normalized res.actions res.transitions).filteredEdges) := by
  refine ⟨?_, ?_, ?_⟩
  · rw [mergeVisit_new _ _ _ _ _ _ hvis]
    exact ⟨_, recordGet_set_self _ _ _⟩
  · intro e he htype
    rw [buildPage_filtered_mem]
    refine ⟨he, ?_⟩
    rintro ⟨h1, h2, _⟩
    rcases htype with h | h
    · exact h1 h
    · exact h2 h
  · intro e he htype hlab
    rw [buildPage_filtered_mem]
    rintro ⟨_, hkeep⟩
    refine hkeep ⟨?_, ?_, hlab⟩
    · rcases htype with h | h <;> rw [h] <;> simp
    · rcases htype with h | h <;> rw [h] <;> simp

/-! ## C3: when synthetic nodes appear -/

theorem visit_false_transitions {W : VisitOracle} {url : String} {tpp : Nat}
    {res : VisitRes} (h : visit W url false tpp = some res) :
    res.transitions = [] := by
  rw [visit] at h
  cases hw : W url with
  | none => rw [hw] at h; cases h
  | some r =>
    rw [hw, Option.map_some'] at h
    rw [Option.some_inj] at h
    subst h
    rfl

theorem buildPage_aG_no_transitions (so : Bool) (bo : Option String)
    (visited : List String) (aG : Record (List Edge)) (n : String)
    (actions : List Action) :
    (buildPage so bo visited aG n actions []).actionGraph = aG := rfl

theorem self_ne_trans (n t : String) : n ≠ n ++ "::TRANS::" ++ t := by
  intro h
  have hl := congrArg String.length h
  rw [String.length_append, String.length_append] at hl
  have h9 : ("::TRANS::" : String).length = 9 := rfl
  omega

theorem self_ne_opt (n t o : String) :
    n ≠ n ++ "::TRANS::" ++ t ++ "::OPT::" ++ o := by
  intro h
  have hl := congrArg String.length h
  rw [String.length_append, String.length_append, String.length_append,
      String.length_append] at hl
  have h9 : ("::TRANS::" : String).length = 9 := rfl
  have h7 : ("::OPT::" : String).length = 7 := rfl
  omega

/-- Invariant: no synthetic nodes — every `actionGraph` key is a visited
page's URL and no edge is transition-typed. -/
def NoTransInv (st : CrawlState) : Prop :=
  (∀ k, (recordGet st.actionGraph k).isSome = true → ∃ p ∈ st.pages, p.url = k) ∧
  (∀ k l, recordGet st.actionGraph k = some l →
    ∀ e ∈ l, e.type ≠ EdgeType.transition)

theorem mergeVisit_noTransInv (so : Bool) (md : Nat) (st : CrawlState)
    (cands : List Frontier) (input : Frontier) (res : VisitRes)
    (hts : res.transitions = []) (h : NoTransInv st) :
    NoTransInv (mergeVisit so md st cands input res).1 := by
  cases hv : st.visited.contains res.normalized with
  | true =>
    rw [mergeVisit_skip so md st cands input res hv]
    exact h
  | false =>
    rw [mergeVisit_new so md st cands input res hv]
    dsimp only
    rw [hts, buildPage_aG_no_transitions]
    obtain ⟨hkeys, htypes⟩ := h
    constructor
    · intro k hk
      by_cases hkn : k = res.normalized
      · subst hkn
        exact ⟨pageOf input res, List.mem_append_right _
          (List.mem_singleton.mpr rfl), rfl⟩
      · rw [recordGet_set_other _ _ _ hkn] at hk
        obtain ⟨p, hp, hurl⟩ := hkeys k hk
        exact ⟨p, List.mem_append_left _ hp, hurl⟩
    · intro k l hl e he
      by_cases hkn : k = res.normalized
      · subst hkn
        rw [recordGet_set_self] at hl
        rw [Option.some_inj] at hl
        rw [← hl] at he
        rcases List.mem_append.mp he with h' | h'
        · cases hget : recordGet st.actionGraph res.normalized with
          | none => rw [hget] at h'; cases h'
          | some l₀ =>
            rw [hget] at h'
            exact htypes _ l₀ hget e h'
        · rw [buildPage_filtered_mem] at h'
          rcases h'.1 with h'' | h''
          · exact pageActionEdges_no_transition so input.origin _ _ _ e h''
          · rw [trEdges] at h''
            simp at h''
      · rw [recordGet_set_other _ _ _ hkn] at hl
        exact htypes k l hl e he

/-- **C3** (amended).  (1) With `discoverTransitions` disabled, no
synthetic nodes and no transition edges appear: every `actionGraph` key is
a visited page's URL and every recorded edge is non-transition.  (2) When a
page with a discovered transition of non-empty trigger label is merged, the
transition node entry exists and the page→transition edge is recorded even
when `added` and `removed` are both empty.  (3) A transition whose `added`
and `removed` are both empty yields no option edges: its fresh transition
node's entry stays empty. -/
theorem C3_synthetic_nodes (W : VisitOracle) (options : CrawlOptions) :
    (options.discoverTransitions = some false →
      (∀ k, (recordGet (crawl W options).actionGraph k).isSome = true →
        ∃ p ∈ (crawl W options).pages, p.url = k) ∧
      (∀ k l, recordGet (crawl W options).actionGraph k = some l →
        ∀ e ∈ l, e.type ≠ EdgeType.transition)) ∧
    (∀ (so : Bool) (md : Nat) (st : CrawlState) (cands : List Frontier)
      (input : Frontier) (res : VisitRes) (tr : Transition),
      st.visited.contains res.normalized = false → tr ∈ res.transitions →
      tr.triggerLabel ≠ "" →
      (∃ l, recordGet (mergeVisit so md st cands input res).1.actionGraph
        (res.normalized ++ "::TRANS::" ++ tr.triggerLabel) = some l) ∧
      MemEntry (mergeVisit so md st cands input res).1.actionGraph
        res.normalized (trEdgeOf res.normalized tr)) ∧
    (∀ (so : Bool) (md : Nat) (st : CrawlState) (cands : List Frontier)
      (input : Frontier) (res : VisitRes) (tr : Transition),
      st.visited.contains res.normalized = false → res.transitions = [tr] →
      tr.triggerLabel ≠ "" → tr.added = [] → tr.removed = [] →
      recordGet st.actionGraph
        (res.normalized ++ "::TRANS::" ++ tr.triggerLabel) = none →
      recordGet (mergeVisit so md st cands input res).1.actionGraph
        (res.normalized ++ "::TRANS::" ++ tr.triggerLabel) = some []) := by
  refine ⟨?_, ?_, ?_⟩
  · intro hdt
    rw [crawl_eq_state]
    have hbase : NoTransInv ⟨[], [], [], []⟩ := by
      constructor
      · intro k hk
        rw [recordGet_nil] at hk
        cases hk
      · intro k l hl
        rw [recordGet_nil] at hl
        cases hl
    have h := crawlLoop_preserve W (options.sameOrigin.getD true)
      (options.maxDepth.getD 1) (options.maxPages.getD 50)
      (max 1 (min (options.concurrency.getD 3) 10))
      (options.discoverTransitions.getD true)
      (max 0 (min (options.transitionsPerPage.getD 12) 50)) NoTransInv
      (fun st cands input res hv hp => by
        rw [hdt] at hv
        exact mergeVisit_noTransInv _ _ st cands input res
          (visit_false_transitions hv) hp)
      (options.maxDepth.getD 1 + 1) 0 ⟨[], [], [], []⟩
      (options.seeds.map fun s =>
        { url := normalizeUrl s, depth := 0, origin := (parseUrl s).map Url.origin })
      hbase
    exact h
  · intro so md st cands input res tr hvis htr hlab
    rw [mergeVisit_new so md st cands input res hvis]
    dsimp only
    constructor
    · obtain ⟨l, hl⟩ := buildPage_node_exists so input.origin
        (res.normalized :: st.visited) st.actionGraph res.normalized
        res.actions res.transitions tr htr hlab
      refine ⟨l, ?_⟩
      rw [recordGet_set_other _ _ _
        (fun h => self_ne_trans res.normalized tr.triggerLabel h.symm)]
      · exact hl
    · refine ⟨_, recordGet_set_self _ _ _, ?_⟩
      refine List.mem_append_right _ ?_
      rw [buildPage_filtered_mem]
      constructor
      · refine Or.inr ?_
        rw [mem_trEdges]
        exact ⟨tr, htr, hlab, rfl⟩
      · rintro ⟨_, h2, _⟩
        exact h2 rfl
  · intro so md st cands input res tr hvis hts hlab ha hr hnone
    rw [mergeVisit_new so md st cands input res hvis]
    dsimp only
    rw [recordGet_set_other _ _ _
      (fun h => self_ne_trans res.normalized tr.triggerLabel h.symm)]
    rw [buildPage, hts]
    dsimp only
    rw [List.foldl_cons, List.foldl_nil]
    have := processTransition_empty_delta res.normalized
      ((res.actions.foldl (processAction so input.origin
        (res.normalized :: st.visited) res.normalized) ([], [])).2, st.actionGraph)
      tr hlab ha hr
    rw [this.1]
    dsimp only
    rw [hnone]
    rfl

/-- A site whose only page reports one transition with an empty
added/removed delta. -/
def W3 : VisitOracle := fun url =>
  if url = "https://a.com/" then
    some { currentUrl := "https://a.com/",
           transitions := [{ triggerLabel := "Open" }] }
  else none

def opts3 : CrawlOptions := { seeds := ["https://a.com"] }

def opts3f : CrawlOptions :=
  { seeds := ["https://a.com"], discoverTransitions := some false }

def st3 : CrawlState := ⟨[], [], [], []⟩

def in3 : Frontier :=
  { url := "https://a.com/", depth := 0, origin := some "https://a.com" }

def res3 : VisitRes :=
  { normalized := "https://a.com/", title := "", actions := [],
    transitions := [{ triggerLabel := "Open" }] }

def tr3 : Transition := { triggerLabel := "Open" }

/-- **C3 counterexample.**  A discovered transition whose `added` and
`removed` diffs are both empty still creates the synthetic
`url::TRANS::label` node and still records the page→transition edge: node
creation is keyed on the trigger label alone, not on a non-empty delta. -/
theorem C3_counterexample :
    (W3 "https://a.com/").map RenderedPage.transitions =
      some [{ triggerLabel := "Open", added := [], removed := [] }] ∧
    recordGet (crawl W3 opts3).actionGraph "https://a.com/::TRANS::Open" =
      some [] ∧
    recordGet (crawl W3 opts3).actionGraph "https://a.com/" =
      some [{ «to» := "https://a.com/::TRANS::Open", label := "Open",
               type := EdgeType.transition }] := by
  refine ⟨by decide, by decide, by decide⟩

theorem C3_witness :
    (∃ p ∈ (crawl W3 opts3f).pages, p.url = "https://a.com/") ∧
    recordGet (mergeVisit true 1 st3 [] in3 res3).1.actionGraph
      (res3.normalized ++ "::TRANS::" ++ tr3.triggerLabel) = some [] ∧
    (∃ l, recordGet (mergeVisit true 1 st3 [] in3 res3).1.actionGraph
      (res3.normalized ++ "::TRANS::" ++ tr3.triggerLabel) = some l) ∧
    MemEntry (mergeVisit true 1 st3 [] in3 res3).1.actionGraph
      res3.normalized (trEdgeOf res3.normalized tr3) := by
  refine ⟨((C3_synthetic_nodes W3 opts3f).1 rfl).1 "https://a.com/"
    (by decide), ?_, ?_, ?_⟩
  · exact (C3_synthetic_nodes W3 opts3f).2.2 true 1 st3 [] in3 res3 tr3
      (by decide) (by decide) (by decide) (by decide) (by decide) (by decide)
  · exact ((C3_synthetic_nodes W3 opts3f).2.1 true 1 st3 [] in3 res3 tr3
      (by decide) (by decide) (by decide)).1
  · exact ((C3_synthetic_nodes W3 opts3f).2.1 true 1 st3 [] in3 res3 tr3
      (by decide) (by decide) (by decide)).2

/-! ## C1: navigate edges and the origin filter -/

theorem recordGet_set_longer {α} (m : Record α) (k k' : String) (v : α)
    (h : k'.length < k.length) :
    recordGet (recordSet m k v) k' = recordGet m k' :=
  recordGet_set_other k k' v (fun he => by rw [he] at h; exact lt_irrefl _ h) m

theorem addOption_get_short (normalized tn : String) (AE : List Edge)
    (g : Record (List Edge)) (opt : String) (k : String)
    (h : k.length < tn.length) :
    recordGet (addOption normalized tn AE g opt) k = recordGet g k := by
  have hopt' : k.length < (tn ++ "::OPT::" ++ opt).length := by
    rw [String.length_append, String.length_append]
    have h7 : ("::OPT::" : String).length = 7 := rfl
    omega
  rw [addOption]
  by_cases ho : opt = ""
  · rw [if_pos ho]
  · rw [if_neg ho]
    dsimp only
    split
    · rw [recordGet_set_longer _ _ _ _ hopt']
      split
      · rw [recordGet_set_longer _ _ _ _ h]
      · rw [recordGet_set_longer _ _ _ _ hopt',
            recordGet_set_longer _ _ _ _ h]
    · rw [recordGet_set_longer _ _ _ _ hopt']
      split
      · rw [recordGet_set_longer _ _ _ _ h]
      · rw [recordGet_set_longer _ _ _ _ hopt',
            recordGet_set_longer _ _ _ _ h]

theorem addOption_fold_get_short (normalized tn : String) (AE : List Edge)
    (k : String) (h : k.length < tn.length) :
    ∀ (opts : List String) (g : Record (List Edge)),
      recordGet (opts.foldl (addOption normalized tn AE) g) k = recordGet g k
  | [], _ => rfl
  | o :: opts, g => by
    rw [List.foldl_cons, addOption_fold_get_short normalized tn AE k h opts _,
        addOption_get_short normalized tn AE g o k h]

theorem processTransition_get_short (normalized : String)
    (acc : List Edge × Record (List Edge)) (tr : Transition) (k : String)
    (h : k.length ≤ normalized.length) :
    recordGet (processTransition normalized acc tr).2 k = recordGet acc.2 k := by
  by_cases htr : tr.triggerLabel = ""
  · rw [processTransition, if_pos htr]
  · have htn : k.length < (normalized ++ "::TRANS::" ++ tr.triggerLabel).length := by
      rw [String.length_append, String.length_append]
      have h9 : ("::TRANS::" : String).length = 9 := rfl
      omega
    rw [processTransition, if_neg htr]
    dsimp only
    rw [addOption_fold_get_short normalized _ _ k htn]
    split
    · rfl
    · rw [recordGet_set_longer _ _ _ _ htn]

theorem processTransition_fold_get_short (normalized : String) (k : String)
    (h : k.length ≤ normalized.length) :
    ∀ (ts : List Transition) (acc : List Edge × Record (List Edge)),
      recordGet (ts.foldl (processTransition normalized) acc).2 k =
        recordGet acc.2 k
  | [], _ => rfl
  | tr :: ts, acc => by
    rw [List.foldl_cons, processTransition_fold_get_short normalized k h ts _,
        processTransition_get_short normalized acc tr k h]

theorem buildPage_get_short (so : Bool) (bo : Option String)
    (visited : List String) (aG : Record (List Edge)) (normalized : String)
    (actions : List Action) (transitions : List Transition) (k : String)
    (h : k.length ≤ normalized.length) :
    recordGet
      (buildPage so bo visited aG normalized actions transitions).actionGraph k =
      recordGet aG k := by
  rw [buildPage]
  dsimp only
  exact processTransition_fold_get_short normalized k h transitions _

theorem toEdgeType_navigate {t : ActionType}
    (h : t.toEdgeType = EdgeType.navigate) : t = ActionType.navigate := by
  cases t
  · rfl
  · cases h
  · cases h

/-- A seed page with a single navigate action to a different origin. -/
def W1 : VisitOracle := fun url =>
  if url = "https://a.com/" then
    some { currentUrl := "https://a.com/",
           actions := [{ type := ActionType.navigate, label := "Ext",
                         href := some "https://b.com/x" }] }
  else none

def opts1 : CrawlOptions := { seeds := ["https://a.com"] }

/-- **C1 counterexample.**  Under `sameOrigin=true` a navigate action whose
href resolves to a valid http(s) URL of a *different* origin leaves no
trace in the page's `actionGraph` entry: the origin filter `continue`s
before the edge push, so the entry stays empty — the edge is not "recorded
regardless of filtering outcome". -/
theorem C1_counterexample :
    (W1 "https://a.com/").map RenderedPage.actions =
      some [{ type := ActionType.navigate, label := "Ext",
              href := some "https://b.com/x" }] ∧
    resolveHref "https://a.com/" (some "https://b.com/x") =
      some "https://b.com/x" ∧
    normalizeUrl "https://b.com/x" = "https://b.com/x" ∧
    (parseUrl "https://b.com/x").map Url.origin = some "https://b.com" ∧
    (parseUrl "https://a.com").map Url.origin = some "https://a.com" ∧
    recordGet (crawl W1 opts1).actionGraph "https://a.com/" = some [] := by
  refine ⟨by decide, by decide, by decide, by decide, by decide, by decide⟩

/-- **C1** (amended).  When a fresh page is merged: (1) a navigate action
whose href resolves and whose canonical target *passes* the origin filter
is recorded as a navigate edge in the page's entry; (2) conversely, on a
fresh entry every recorded navigate edge's target passes the origin filter
— so under `sameOrigin=true` with a known seed-chain origin, cross-origin
navigate edges are never recorded; (3) every next-layer candidate the merge
adds is depth-incremented, in budget, origin-inheriting, passes the origin
filter, was unvisited, and stems from a resolving navigate action. -/
theorem C1_navigate_edges (so : Bool) (md : Nat) (st : CrawlState)
    (cands : List Frontier) (input : Frontier) (res : VisitRes) :
    (st.visited.contains res.normalized = false →
      ∀ a ∈ res.actions, a.type = ActionType.navigate →
      ∀ abs, resolveHref res.normalized a.href = some abs →
      originOk so input.origin (normalizeUrl abs) = true →
      MemEntry (mergeVisit so md st cands input res).1.actionGraph
        res.normalized (navEdgeOf a (normalizeUrl abs))) ∧
    (st.visited.contains res.normalized = false →
      recordGet st.actionGraph res.normalized = none →
      ∀ l, recordGet (mergeVisit so md st cands input res).1.actionGraph
        res.normalized = some l →
      ∀ e ∈ l, e.type = EdgeType.navigate →
        originOk so input.origin e.to = true) ∧
    (∀ f ∈ (mergeVisit so md st cands input res).2, f ∈ cands ∨
      (f.depth = input.depth + 1 ∧ input.depth + 1 ≤ md ∧
       f.origin = input.origin ∧ originOk so input.origin f.url = true ∧
       (res.normalized :: st.visited).contains f.url = false ∧
       ∃ a ∈ res.actions, a.type = ActionType.navigate ∧
         ∃ abs, resolveHref res.normalized a.href = some abs ∧
           f.url = normalizeUrl abs)) := by
  refine ⟨?_, ?_, ?_⟩
  · intro hvis a ha hnav abs hres hok
    rw [mergeVisit_new so md st cands input res hvis]
    dsimp only
    refine ⟨_, recordGet_set_self _ _ _, List.mem_append_right _ ?_⟩
    rw [buildPage_filtered_mem]
    constructor
    · refine Or.inl ?_
      rw [pageActionEdges, processAction_fold_mem_edges]
      exact Or.inr ⟨a, ha, Or.inl ⟨hnav, abs, hres, hok, rfl⟩⟩
    · rintro ⟨h1, _, _⟩
      exact h1 rfl
  · intro hvis hfresh l hl e he htype
    rw [mergeVisit_new so md st cands input res hvis] at hl
    dsimp only at hl
    rw [recordGet_set_self] at hl
    rw [Option.some_inj] at hl
    have hpb : recordGet
        (buildPage so input.origin (res.normalized :: st.visited)
          st.actionGraph res.normalized res.actions
          res.transitions).actionGraph res.normalized = none := by
      rw [buildPage_get_short _ _ _ _ _ _ _ _ (le_refl _)]
      exact hfresh
    rw [hpb] at hl
    rw [← hl] at he
    rcases List.mem_append.mp he with h' | h'
    · simp at h'
    · rw [buildPage_filtered_mem] at h'
      rcases h'.1 with hAE | hTR
      · rw [pageActionEdges, processAction_fold_mem_edges] at hAE
        rcases hAE with h0 | ⟨a, _, hc⟩
        · simp at h0
        · rcases hc with ⟨_, abs, hres, hok, he'⟩ | ⟨hnn, he'⟩
          · rw [he']
            exact hok
          · exfalso
            apply hnn
            apply toEdgeType_navigate
            rw [he'] at htype
            exact htype
      · have hty := trEdges_types res.normalized res.transitions e hTR
        rw [htype] at hty
        cases hty
  · intro f hf
    cases hv : st.visited.contains res.normalized with
    | true =>
      rw [mergeVisit_skip so md st cands input res hv] at hf
      exact Or.inl hf
    | false =>
      rw [mergeVisit_new so md st cands input res hv] at hf
      dsimp only at hf
      split at hf
      next hle =>
        rcases List.mem_append.mp hf with h' | h'
        · exact Or.inl h'
        · rw [List.mem_map] at h'
          obtain ⟨nurl, hn, rfl⟩ := h'
          rw [buildPage_nextUrls] at hn
          obtain ⟨a, ha, hnav, abs, hres, ht, hok, hvis'⟩ := hn
          exact Or.inr ⟨rfl, hle, rfl, hok, hvis', a, ha, hnav, abs, hres, ht⟩
      next => exact Or.inl hf

def st1 : CrawlState := ⟨[], [], [], []⟩

def in1 : Frontier :=
  { url := "https://a.com/", depth := 0, origin := some "https://a.com" }

def a1 : Action :=
  { type := ActionType.navigate, label := "Docs", href := some "/docs" }

def res1 : VisitRes :=
  { normalized := "https://a.com/", title := "", actions := [a1],
    transitions := [] }

def f1 : Frontier :=
  { url := "https://a.com/docs", depth := 1, origin := some "https://a.com" }

theorem C1_witness :
    MemEntry (mergeVisit true 1 st1 [] in1 res1).1.actionGraph res1.normalized
      (navEdgeOf a1 (normalizeUrl "https://a.com/docs")) ∧
    (∀ e ∈ ([{ «to» := "https://a.com/docs", label := "Docs",
               type := EdgeType.navigate }] : List Edge),
      e.type = EdgeType.navigate → originOk true in1.origin e.to = true) ∧
    (f1 ∈ ([] : List Frontier) ∨
      (f1.depth = in1.depth + 1 ∧ in1.depth + 1 ≤ 1 ∧
       f1.origin = in1.origin ∧ originOk true in1.origin f1.url = true ∧
       (res1.normalized :: st1.visited).contains f1.url = false ∧
       ∃ a ∈ res1.actions, a.type = ActionType.navigate ∧
         ∃ abs, resolveHref res1.normalized a.href = some abs ∧
           f1.url = normalizeUrl abs)) := by
  refine ⟨?_, ?_, ?_⟩
  · exact (C1_navigate_edges true 1 st1 [] in1 res1).1 (by decide) a1
      (by decide) (by decide) "https://a.com/docs" (by decide) (by decide)
  · exact (C1_navigate_edges true 1 st1 [] in1 res1).2.1 (by decide)
      (by decide)
      [{ «to» := "https://a.com/docs", label := "Docs",
         type := EdgeType.navigate }] (by decide)
  · exact (C1_navigate_edges true 1 st1 [] in1 res1).2.2 f1 (by decide)

/-! ## C2: transition/option node wiring -/

/-- A page whose only transition reports a single *empty* added label. -/
def W2 : VisitOracle := fun url =>
  if url = "https://a.com/" then
    some { currentUrl := "https://a.com/",
           transitions := [{ triggerLabel := "Open", added := [""] }] }
  else none

def opts2 : CrawlOptions := { seeds := ["https://a.com"] }

/-- **C2 counterexample.**  An empty string in `added` is skipped by the
option loop (`if (!opt) continue`): no option node and no
transition→option edge is created for it, contrary to "for each label in
the transition's added set". -/
theorem C2_counterexample :
    (W2 "https://a.com/").map RenderedPage.transitions =
      some [{ triggerLabel := "Open", added := [""] }] ∧
    combinedOf { triggerLabel := "Open", added := [""] } = [""] ∧
    recordGet (crawl W2 opts2).actionGraph "https://a.com/::TRANS::Open" =
      some [] ∧
    recordGet (crawl W2 opts2).actionGraph
      "https://a.com/::TRANS::Open::OPT::" = none := by
  refine ⟨by decide, by decide, by decide, by decide⟩

/-- **C2** (amended).  For a freshly merged page and a discovered
transition with non-empty trigger, each *non-empty* label `opt` of the
combined option list (`added`, else `removed`) yields: the page→transition
edge, a transition→option click edge, and the option node's outgoing edge,
which is the destination of the first case-insensitively label-matching
navigate edge when one exists and otherwise a click loop back to the page
node. -/
theorem C2_transition_options (so : Bool) (md : Nat) (st : CrawlState)
    (cands : List Frontier) (input : Frontier) (res : VisitRes)
    (tr : Transition) (opt : String)
    (hvis : st.visited.contains res.normalized = false)
    (htr : tr ∈ res.transitions) (hlab : tr.triggerLabel ≠ "")
    (hopt : opt ∈ combinedOf tr) (hne : opt ≠ "") :
    MemEntry (mergeVisit so md st cands input res).1.actionGraph
      res.normalized (trEdgeOf res.normalized tr) ∧
    MemEntry (mergeVisit so md st cands input res).1.actionGraph
      (res.normalized ++ "::TRANS::" ++ tr.triggerLabel)
      (optClickEdge (res.normalized ++ "::TRANS::" ++ tr.triggerLabel) opt) ∧
    MemEntry (mergeVisit so md st cands input res).1.actionGraph
      ((res.normalized ++ "::TRANS::" ++ tr.triggerLabel) ++ "::OPT::" ++ opt)
      (optTargetEdge res.normalized
        (pageActionEdges so input.origin (res.normalized :: st.visited)
          res.normalized res.actions) opt) ∧
    (∀ e, navMatchIn (pageActionEdges so input.origin
        (res.normalized :: st.visited) res.normalized res.actions) opt =
        some e →
      optTargetEdge res.normalized
        (pageActionEdges so input.origin (res.normalized :: st.visited)
          res.normalized res.actions) opt =
        { «to» := e.to, label := if e.label = "" then opt else e.label,
          type := EdgeType.navigate }) ∧
    (navMatchIn (pageActionEdges so input.origin
        (res.normalized :: st.visited) res.normalized res.actions) opt =
        none →
      optTargetEdge res.normalized
        (pageActionEdges so input.origin (res.normalized :: st.visited)
          res.normalized res.actions) opt =
        { «to» := res.normalized, label := opt, type := EdgeType.click }) := by
  have hcontent := buildPage_actionGraph_content so input.origin
    (res.normalized :: st.visited) st.actionGraph res.normalized res.actions
    res.transitions tr htr hlab opt hopt hne
  refine ⟨?_, ?_, ?_, ?_, ?_⟩
  · rw [mergeVisit_new so md st cands input res hvis]
    dsimp only
    refine ⟨_, recordGet_set_self _ _ _, List.mem_append_right _ ?_⟩
    rw [buildPage_filtered_mem]
    constructor
    · refine Or.inr ?_
      rw [mem_trEdges]
      exact ⟨tr, htr, hlab, rfl⟩
    · rintro ⟨_, h2, _⟩
      exact h2 rfl
  · rw [mergeVisit_new so md st cands input res hvis]
    dsimp only
    exact hcontent.1.mono (RecExt.set_append _ _ _)
  · rw [mergeVisit_new so md st cands input res hvis]
    dsimp only
    exact hcontent.2.mono (RecExt.set_append _ _ _)
  · intro e hnm
    exact optTargetEdge_some hnm res.normalized
  · intro hnm
    exact optTargetEdge_none hnm res.normalized

def st2 : CrawlState := ⟨[], [], [], []⟩

def in2 : Frontier :=
  { url := "https://a.com/", depth := 0, origin := some "https://a.com" }

def a2 : Action :=
  { type := ActionType.navigate, label := "Profile", href := some "/profile" }

def tr2 : Transition := { triggerLabel := "Menu", added := ["profile", "Gone"] }

def res2 : VisitRes :=
  { normalized := "https://a.com/", title := "", actions := [a2],
    transitions := [tr2] }

theorem C2_witness :
    MemEntry (mergeVisit true 1 st2 [] in2 res2).1.actionGraph
      res2.normalized (trEdgeOf res2.normalized tr2) ∧
    MemEntry (mergeVisit true 1 st2 [] in2 res2).1.actionGraph
      (res2.normalized ++ "::TRANS::" ++ tr2.triggerLabel)
      (optClickEdge (res2.normalized ++ "::TRANS::" ++ tr2.triggerLabel)
        "profile") ∧
    MemEntry (mergeVisit true 1 st2 [] in2 res2).1.actionGraph
      ((res2.normalized ++ "::TRANS::" ++ tr2.triggerLabel) ++ "::OPT::" ++
        "profile")
      (optTargetEdge res2.normalized
        (pageActionEdges true in2.origin (res2.normalized :: st2.visited)
          res2.normalized res2.actions) "profile") ∧
    optTargetEdge res2.normalized
      (pageActionEdges true in2.origin (res2.normalized :: st2.visited)
        res2.normalized res2.actions) "profile" =
      { «to» := "https://a.com/profile", label := "Profile",
        type := EdgeType.navigate } ∧
    MemEntry (mergeVisit true 1 st2 [] in2 res2).1.actionGraph
      ((res2.normalized ++ "::TRANS::" ++ tr2.triggerLabel) ++ "::OPT::" ++
        "Gone")
      (optTargetEdge res2.normalized
        (pageActionEdges true in2.origin (res2.normalized :: st2.visited)
          res2.normalized res2.actions) "Gone") ∧
    optTargetEdge res2.normalized
      (pageActionEdges true in2.origin (res2.normalized :: st2.visited)
        res2.normalized res2.actions) "Gone" =
      { «to» := res2.normalized, label := "Gone", type := EdgeType.click } := by
  have hA := C2_transition_options true 1 st2 [] in2 res2 tr2 "profile"
    (by decide) (by decide) (by decide) (by decide) (by decide)
  have hB := C2_transition_options true 1 st2 [] in2 res2 tr2 "Gone"
    (by decide) (by decide) (by decide) (by decide) (by decide)
  refine ⟨hA.1, hA.2.1, hA.2.2.1, ?_, hB.2.2.1, ?_⟩
  · exact hA.2.2.2.1
      { «to» := "https://a.com/profile", label := "Profile",
        type := EdgeType.navigate } (by decide)
  · exact hB.2.2.2.2 (by decide)

/-! ## C9: the DOT emitter -/

/-- First pass of `esc` (renderer.ts 468): double every backslash. -/
def escBackslash (s : List Char) : List Char :=
  s.flatMap fun c => if c = '\\' then ['\\', '\\'] else [c]

/-- Second pass of `esc`: backslash-escape every quote. -/
def escQuote (s : List Char) : List Char :=
  s.flatMap fun c => if c = '"' then ['\\', '"'] else [c]

/-- Embeds `esc` (renderer.ts 467-469): escape backslashes, then quotes. -/
def esc (s : String) : String := ⟨escQuote (escBackslash s.data)⟩

/-- The per-character effect of the two `esc` passes combined. -/
def escC (c : Char) : List Char :=
  if c = '\\' then ['\\', '\\'] else if c = '"' then ['\\', '"'] else [c]

def escChars (s : List Char) : List Char := s.flatMap escC

theorem escChars_eq : ∀ s : List Char, escQuote (escBackslash s) = escChars s
  | [] => rfl
  | c :: s => by
    rw [escBackslash, List.flatMap_cons, escQuote, List.flatMap_append]
    rw [escChars, List.flatMap_cons]
    have hs : (s.flatMap fun c => if c = '\\' then ['\\', '\\'] else [c]).flatMap
        (fun c => if c = '"' then ['\\', '"'] else [c]) = s.flatMap escC := by
      have := escChars_eq s
      rw [escBackslash, escQuote, escChars] at this
      exact this
    rw [hs]
    by_cases h1 : c = '\\'
    · subst h1
      rfl
    · rw [if_neg h1]
      by_cases h2 : c = '"'
      · subst h2
        rfl
      · rw [List.flatMap_cons, List.flatMap_nil, if_neg h2]
        have hc : escC c = [c] := by rw [escC, if_neg h1, if_neg h2]
        rw [hc]
        rfl

theorem esc_data (s : String) : (esc s).data = escChars s.data :=
  escChars_eq s.data

/-- Decoder core for a quoted, escaped segment: the flag records a pending
backslash escape. -/
def scanQA : List Char → Bool → Option (List Char × List Char)
  | [], _ => none
  | c :: rest, b =>
    if b then (scanQA rest false).map fun p => (c :: p.1, p.2)
    else if c = '\\' then scanQA rest true
    else if c = '"' then some ([], rest)
    else (scanQA rest false).map fun p => (c :: p.1, p.2)

/-- Decoder for a quoted, escaped segment: the content up to the first
unescaped quote, unescaped, together with the remainder after that
quote. -/
def scanQ (l : List Char) : Option (List Char × List Char) := scanQA l false

theorem scanQ_esc : ∀ (s rest : List Char),
    scanQ (escChars s ++ '"' :: rest) = some (s, rest)
  | [], rest => rfl
  | c :: s, rest => by
    rw [escChars, List.flatMap_cons, List.append_assoc]
    by_cases h1 : c = '\\'
    · subst h1
      show (scanQ (List.flatMap s escC ++ '"' :: rest)).map
          (fun p => ('\\' :: p.1, p.2)) = some ('\\' :: s, rest)
      have := scanQ_esc s rest
      rw [escChars] at this
      rw [this]
      rfl
    · by_cases h2 : c = '"'
      · subst h2
        show (scanQ (List.flatMap s escC ++ '"' :: rest)).map
            (fun p => ('"' :: p.1, p.2)) = some ('"' :: s, rest)
        have := scanQ_esc s rest
        rw [escChars] at this
        rw [this]
        rfl
      · have hc : escC c = [c] := by rw [escC, if_neg h1, if_neg h2]
        rw [hc, List.singleton_append, scanQ, scanQA, if_neg (by simp),
            if_neg h1, if_neg h2]
        have := scanQ_esc s rest
        rw [escChars] at this
        rw [scanQ] at this
        rw [this]
        rfl

/-- Extracts the declared node id of a node-declaration line
(`  "id" [attrs];`), unescaping it. -/
def dotDeclAux : List Char → Option String
  | ' ' :: ' ' :: '"' :: rest =>
    match scanQ rest with
    | some (id, ' ' :: '[' :: _) => some ⟨id⟩
    | _ => none
  | _ => none

def dotDecl (line : String) : Option String := dotDeclAux line.data

/-- Extracts the source and target ids of an edge line
(`  "src" -> "dst" ...`), unescaping them. -/
def dotEdgeAux : List Char → Option (String × String)
  | ' ' :: ' ' :: '"' :: rest =>
    match scanQ rest with
    | some (src, ' ' :: '-' :: '>' :: ' ' :: '"' :: rest2) =>
      match scanQ rest2 with
      | some (dst, _) => some (⟨src⟩, ⟨dst⟩)
      | none => none
    | _ => none
  | _ => none

def dotEdge (line : String) : Option (String × String) := dotEdgeAux line.data

/-- First index at which `pat` occurs as a substring (JS `indexOf`). -/
def indexOfSub (pat : List Char) : List Char → Option Nat
  | [] => if pat.isPrefixOf ([] : List Char) then some 0 else none
  | c :: rest =>
    if pat.isPrefixOf (c :: rest) then some 0
    else (indexOfSub pat rest).map (· + 1)

/-- JS `s.includes(pat)`. -/
def includesSub (s pat : String) : Bool := (indexOfSub pat.data s.data).isSome

/-- Embeds `labelFor` (renderer.ts 470-488): the pathname+search of a
parseable URL, else a marker-derived label for synthetic nodes, with
long labels truncated. -/
def labelFor (url : String) : String :=
  match parseUrl url with
  | some u =>
    let pathq := (if u.path = "" then "/" else u.path) ++
      (if u.query = "" then "" else "?" ++ u.query)
    let pathq := if pathq = "" then "/" else pathq
    if pathq.length > 120 then (⟨pathq.data.take 117⟩ : String) ++ "…" else pathq
  | none =>
    match indexOfSub ("::TRANS::".data) url.data,
          indexOfSub ("::OPT::".data) url.data with
    | some tIx, none => "▶ " ++ (⟨url.data.drop (tIx + 9)⟩ : String)
    | _, some oIx => "• " ++ (⟨url.data.drop (oIx + 7)⟩ : String)
    | none, none =>
      if url.length > 120 then (⟨url.data.take 117⟩ : String) ++ "…" else url

/-- The attribute block of a node-declaration line (renderer.ts 505-513). -/
def declSuffix (n : String) : String :=
  let label := esc (labelFor n)
  let tooltip := esc n
  let isTrans := includesSub n "::TRANS::"
  let isOpt := includesSub n "::OPT::"
  let style := if isOpt then "dashed,rounded"
               else if isTrans then "dashed,rounded" else "rounded"
  let color := if isOpt then "gray50"
               else if isTrans then "dodgerblue" else "black"
  let extra := if isOpt then ", fillcolor=\"whitesmoke\"" else ""
  "label=\"" ++ label ++ "\", tooltip=\"" ++ tooltip ++ "\", color=\"" ++
    color ++ "\", style=\"" ++ style ++ "\"" ++ extra ++ "];"

/-- One node-declaration line. -/
def declLine (n : String) : String := "  \"" ++ esc n ++ "\" [" ++ declSuffix n

/-- The shared `"src" -> "dst"` prefix of every edge line. -/
def edgePrefix (src dst : String) : String :=
  "  \"" ++ esc src ++ "\" -> \"" ++ esc dst ++ "\""

/-- One legacy-graph edge line (renderer.ts 517-528): labelled when the
matching navigate edge has a truthy label. -/
def graphEdgeLine (src dst lbl : String) : String :=
  if lbl = "" then edgePrefix src dst ++ ";"
  else edgePrefix src dst ++ (" [label=\"" ++ lbl ++ "\"];")

/-- JS `new Set`-style insertion: append if absent. -/
def setAdd (acc : List String) (x : String) : List String :=
  if acc.contains x then acc else acc ++ [x]

/-- The node set of the DOT output (renderer.ts 494-502): graph keys, then
graph targets, then actionGraph sources interleaved with their edge
targets; first occurrence wins. -/
def dotNodes (result : CrawlResult) : List String :=
  let n1 := result.graph.foldl (fun acc kv => setAdd acc kv.1) []
  let n2 := result.graph.foldl (fun acc kv => kv.2.foldl setAdd acc) n1
  result.actionGraph.foldl
    (fun acc kv => kv.2.foldl (fun a e => setAdd a e.to) (setAdd acc kv.1)) n2

/-- The legacy-graph edge lines (renderer.ts 517-528): per source, targets
deduplicated, label looked up among the source's navigate edges. -/
def graphEdgeLines (result : CrawlResult) : List String :=
  result.graph.foldl (fun acc kv =>
    acc ++ (dedup kv.2).map fun dst =>
      graphEdgeLine kv.1 dst
        (esc (((((recordGet result.actionGraph kv.1).getD []).filter fun e =>
          e.type == EdgeType.navigate && e.to == dst).head?.map
            Edge.label).getD ""))) []

/-- One actionGraph edge line (renderer.ts 531-548): navigate edges only
from synthetic sources, transition edges dotted, click/toggle dashed. -/
def agEdgeLine (src : String) (e : Edge) : Option String :=
  if e.type == EdgeType.navigate then
    if includesSub src "::TRANS::" || includesSub src "::OPT::" then
      some (edgePrefix src e.to ++ (" [label=\"" ++ esc e.label ++ "\"];"))
    else none
  else if e.type == EdgeType.transition then
    some (edgePrefix src e.to ++
      (" [style=dotted, color=dodgerblue, label=\"" ++ esc e.label ++ "\"];"))
  else
    some (edgePrefix src e.to ++
      (" [style=dashed, color=gray50, label=\"" ++ esc e.label ++ "\"];"))

def agEdgeLines (result : CrawlResult) : List String :=
  result.actionGraph.foldl (fun acc kv =>
    acc ++ kv.2.filterMap (agEdgeLine kv.1)) []

/-- The full line list of `toDot` (renderer.ts 466-554). -/
def toDotLines (result : CrawlResult) : List String :=
  ["digraph G \x7b", "  rankdir=LR;",
   "  node [shape=box, style=rounded, fontsize=10];"] ++
  (dotNodes result).map declLine ++
  graphEdgeLines result ++ agEdgeLines result ++ ["\x7d"]

/-- Embeds `toDot`: the lines joined by newlines. -/
def toDot (result : CrawlResult) : String :=
  String.intercalate "\n" (toDotLines result)

theorem dotDeclAux_eq (rest : List Char) :
    dotDeclAux (' ' :: ' ' :: '"' :: rest) =
      match scanQ rest with
      | some (id, ' ' :: '[' :: _) => some (⟨id⟩ : String)
      | _ => none := rfl

theorem dotEdgeAux_eq (rest : List Char) :
    dotEdgeAux (' ' :: ' ' :: '"' :: rest) =
      match scanQ rest with
      | some (src, ' ' :: '-' :: '>' :: ' ' :: '"' :: rest2) =>
        match scanQ rest2 with
        | some (dst, _) => some ((⟨src⟩ : String), (⟨dst⟩ : String))
        | none => none
      | _ => none := rfl

theorem declLine_data (n : String) :
    (declLine n).data =
      ' ' :: ' ' :: '"' ::
        (escChars n.data ++ '"' :: ' ' :: '[' :: (declSuffix n).data) := by
  rw [declLine, String.data_append, String.data_append, String.data_append,
      esc_data]
  simp

theorem dotDecl_declLine (n : String) : dotDecl (declLine n) = some n := by
  rw [dotDecl, declLine_data, dotDeclAux_eq, scanQ_esc]
  rfl

theorem dotEdge_declLine (n : String) : dotEdge (declLine n) = none := by
  rw [dotEdge, declLine_data, dotEdgeAux_eq, scanQ_esc]
  rfl

theorem edgePrefix_append_data (src dst t : String) :
    (edgePrefix src dst ++ t).data =
      ' ' :: ' ' :: '"' ::
        (escChars src.data ++ '"' :: ' ' :: '-' :: '>' :: ' ' :: '"' ::
          (escChars dst.data ++ '"' :: t.data)) := by
  rw [edgePrefix]
  rw [String.data_append, String.data_append, String.data_append,
      String.data_append, String.data_append, esc_data, esc_data]
  simp

theorem dotEdge_edgeLine (src dst t : String) :
    dotEdge (edgePrefix src dst ++ t) = some (src, dst) := by
  rw [dotEdge, edgePrefix_append_data, dotEdgeAux_eq, scanQ_esc]
  show (match scanQ (escChars dst.data ++ '"' :: t.data) with
    | some (d, _) => some ((⟨src.data⟩ : String), (⟨d⟩ : String))
    | none => none) = some (src, dst)
  rw [scanQ_esc]

theorem dotDecl_edgeLine (src dst t : String) :
    dotDecl (edgePrefix src dst ++ t) = none := by
  rw [dotDecl, edgePrefix_append_data, dotDeclAux_eq, scanQ_esc]
  rfl

theorem graphEdgeLine_shape (src dst lbl : String) :
    ∃ t, graphEdgeLine src dst lbl = edgePrefix src dst ++ t := by
  rw [graphEdgeLine]
  split
  · exact ⟨";", rfl⟩
  · exact ⟨" [label=\"" ++ lbl ++ "\"];", rfl⟩

theorem agEdgeLine_shape (src : String) (e : Edge) (line : String)
    (h : agEdgeLine src e = some line) :
    ∃ t, line = edgePrefix src e.to ++ t := by
  rw [agEdgeLine] at h
  split at h
  · split at h
    · rw [Option.some_inj] at h
      exact ⟨_, h.symm⟩
    · cases h
  · split at h
    · rw [Option.some_inj] at h
      exact ⟨_, h.symm⟩
    · rw [Option.some_inj] at h
      exact ⟨_, h.symm⟩

theorem mem_setAdd (acc : List String) (x y : String) :
    y ∈ setAdd acc x ↔ y ∈ acc ∨ y = x := by
  rw [setAdd]
  split
  next hc =>
    constructor
    · exact Or.inl
    · rintro (h | rfl)
      · exact h
      · exact List.elem_iff.mp hc
  next =>
    rw [List.mem_append, List.mem_singleton]

theorem setAdd_nodup (acc : List String) (x : String) (h : acc.Nodup) :
    (setAdd acc x).Nodup := by
  rw [setAdd]
  split
  · exact h
  next hc =>
    rw [List.nodup_append]
    refine ⟨h, List.nodup_singleton x, fun y hy hyx => ?_⟩
    rw [List.mem_singleton] at hyx
    subst hyx
    exact hc (by simpa using hy)

theorem mem_foldl_pres {α} (step : List String → α → List String)
    (hstep : ∀ acc a x, x ∈ acc → x ∈ step acc a) :
    ∀ (l : List α) (acc : List String) (x : String),
      x ∈ acc → x ∈ l.foldl step acc
  | [], _, _, h => h
  | a :: l, acc, x, h =>
    mem_foldl_pres step hstep l _ x (hstep acc a x h)

theorem fold_mem_of_elem {α} (step : List String → α → List String)
    (hstep : ∀ acc a x, x ∈ acc → x ∈ step acc a)
    (l : List α) (a : α) (ha : a ∈ l) (x : String)
    (hx : ∀ acc, x ∈ step acc a) :
    ∀ acc, x ∈ l.foldl step acc := by
  induction l with
  | nil => cases ha
  | cons b l ih =>
    intro acc
    rw [List.foldl_cons]
    rcases List.mem_cons.mp ha with rfl | h'
    · exact mem_foldl_pres step hstep l _ x (hx acc)
    · exact ih h' _

theorem foldl_nodup {α} (step : List String → α → List String)
    (hstep : ∀ acc a, acc.Nodup → (step acc a).Nodup) :
    ∀ (l : List α) (acc : List String), acc.Nodup → (l.foldl step acc).Nodup
  | [], _, h => h
  | a :: l, acc, h => foldl_nodup step hstep l _ (hstep acc a h)

theorem setAdd_pres (acc : List String) (x y : String) (h : y ∈ acc) :
    y ∈ setAdd acc x :=
  (mem_setAdd acc x y).mpr (Or.inl h)

theorem setAdd_self (acc : List String) (x : String) : x ∈ setAdd acc x :=
  (mem_setAdd acc x x).mpr (Or.inr rfl)

theorem dotNodes_nodup (result : CrawlResult) : (dotNodes result).Nodup := by
  rw [dotNodes]
  refine foldl_nodup _ (fun acc kv h => ?_) _ _
    (foldl_nodup _ (fun acc kv h => ?_) _ _
      (foldl_nodup _ (fun acc kv h => setAdd_nodup acc kv.1 h) _ _
        List.nodup_nil))
  · exact foldl_nodup _ (fun a e hn => setAdd_nodup a e.to hn) _ _
      (setAdd_nodup acc kv.1 h)
  · exact foldl_nodup _ (fun a e hn => setAdd_nodup a e hn) _ _ h

theorem dotNodes_pres (result : CrawlResult) (x : String) :
    ∀ acc, x ∈ acc →
      x ∈ result.actionGraph.foldl
        (fun acc kv => kv.2.foldl (fun a e => setAdd a e.to) (setAdd acc kv.1))
        acc := by
  intro acc h
  refine mem_foldl_pres _ (fun acc kv x h => ?_) _ _ _ h
  exact mem_foldl_pres _ (fun a e y hy => setAdd_pres a e.to y hy) _ _ _
    (setAdd_pres acc kv.1 x h)

theorem dotNodes_graph_key (result : CrawlResult) (kv : String × List String)
    (hkv : kv ∈ result.graph) : kv.1 ∈ dotNodes result := by
  rw [dotNodes]
  refine dotNodes_pres result kv.1 _ ?_
  refine mem_foldl_pres _ (fun acc kv' x h =>
    mem_foldl_pres _ (fun a e y hy => setAdd_pres a e y hy) _ _ _ h) _ _ _ ?_
  exact fold_mem_of_elem _ (fun acc a x h => setAdd_pres acc a.1 x h)
    _ kv hkv kv.1 (fun acc => setAdd_self acc kv.1) []

theorem dotNodes_graph_target (result : CrawlResult)
    (kv : String × List String) (hkv : kv ∈ result.graph) (d : String)
    (hd : d ∈ kv.2) : d ∈ dotNodes result := by
  rw [dotNodes]
  refine dotNodes_pres result d _ ?_
  refine fold_mem_of_elem _ (fun acc a x h =>
      mem_foldl_pres _ (fun a e y hy => setAdd_pres a e y hy) _ _ _ h)
    _ kv hkv d (fun acc => ?_) _
  exact fold_mem_of_elem _ (fun acc a x h => setAdd_pres acc a x h)
    _ d hd d (fun acc => setAdd_self acc d) acc

theorem dotNodes_ag_key (result : CrawlResult) (kv : String × List Edge)
    (hkv : kv ∈ result.actionGraph) : kv.1 ∈ dotNodes result := by
  rw [dotNodes]
  refine fold_mem_of_elem _ (fun acc a x h =>
      mem_foldl_pres _ (fun a e y hy => setAdd_pres a e.to y hy) _ _ _
        (setAdd_pres acc a.1 x h))
    _ kv hkv kv.1 (fun acc => ?_) _
  exact mem_foldl_pres _ (fun a e y hy => setAdd_pres a e.to y hy) _ _ _
    (setAdd_self acc kv.1)

theorem dotNodes_ag_target (result : CrawlResult) (kv : String × List Edge)
    (hkv : kv ∈ result.actionGraph) (e : Edge) (he : e ∈ kv.2) :
    e.to ∈ dotNodes result := by
  rw [dotNodes]
  refine fold_mem_of_elem _ (fun acc a x h =>
      mem_foldl_pres _ (fun a e y hy => setAdd_pres a e.to y hy) _ _ _
        (setAdd_pres acc a.1 x h))
    _ kv hkv e.to (fun acc => ?_) _
  exact fold_mem_of_elem _ (fun acc a x h => setAdd_pres acc a.to x h)
    _ e he e.to (fun acc => setAdd_self acc e.to) _

theorem foldl_setAdd_sub :
    ∀ (l acc : List String) (x : String),
      x ∈ l.foldl (fun acc x => if acc.contains x then acc else acc ++ [x]) acc →
      x ∈ acc ∨ x ∈ l
  | [], _, _, h => Or.inl h
  | a :: l, acc, x, h => by
    rw [List.foldl_cons] at h
    rcases foldl_setAdd_sub l _ x h with h' | h'
    · by_cases hc : acc.contains a = true
      · rw [if_pos hc] at h'
        exact Or.inl h'
      · rw [if_neg hc] at h'
        rcases List.mem_append.mp h' with h'' | h''
        · exact Or.inl h''
        · rw [List.mem_singleton] at h''
          subst h''
          exact Or.inr (List.mem_cons_self _ _)
    · exact Or.inr (List.mem_cons_of_mem a h')

theorem mem_dedup {l : List String} {x : String} (h : x ∈ dedup l) : x ∈ l := by
  rcases foldl_setAdd_sub l [] x h with h' | h'
  · cases h'
  · exact h'

theorem mem_foldl_append {α β} (f : α → List β) :
    ∀ (l : List α) (acc : List β) (x : β),
      x ∈ l.foldl (fun acc a => acc ++ f a) acc ↔ x ∈ acc ∨ ∃ a ∈ l, x ∈ f a
  | [], acc, x => by simp
  | a :: l, acc, x => by
    rw [List.foldl_cons, mem_foldl_append f l _ x, List.mem_append,
        List.exists_mem_cons_iff, or_assoc]

theorem mem_graphEdgeLines (result : CrawlResult) (line : String) :
    line ∈ graphEdgeLines result ↔
      ∃ kv ∈ result.graph, ∃ dst ∈ dedup kv.2,
        graphEdgeLine kv.1 dst
          (esc (((((recordGet result.actionGraph kv.1).getD []).filter fun e =>
            e.type == EdgeType.navigate && e.to == dst).head?.map
              Edge.label).getD "")) = line := by
  rw [graphEdgeLines, mem_foldl_append]
  simp only [List.not_mem_nil, false_or, List.mem_map]

theorem mem_agEdgeLines (result : CrawlResult) (line : String) :
    line ∈ agEdgeLines result ↔
      ∃ kv ∈ result.actionGraph, ∃ e ∈ kv.2,
        agEdgeLine kv.1 e = some line := by
  rw [agEdgeLines, mem_foldl_append]
  simp only [List.not_mem_nil, false_or, List.mem_filterMap]

theorem toDot_filterMap_decl (result : CrawlResult) :
    (toDotLines result).filterMap dotDecl = dotNodes result := by
  rw [toDotLines, List.filterMap_append, List.filterMap_append,
      List.filterMap_append, List.filterMap_append]
  have h1 : (["digraph G \x7b", "  rankdir=LR;",
      "  node [shape=box, style=rounded, fontsize=10];"] : List String).filterMap
        dotDecl = [] := rfl
  have h2 : ((dotNodes result).map declLine).filterMap dotDecl =
      dotNodes result := by
    rw [List.filterMap_map]
    have : (dotDecl ∘ declLine) = some := by
      funext n
      exact dotDecl_declLine n
    rw [this, List.filterMap_some]
  have h3 : (graphEdgeLines result).filterMap dotDecl = [] := by
    rw [List.filterMap_eq_nil_iff]
    intro line hline
    obtain ⟨kv, _, dst, _, heq⟩ := (mem_graphEdgeLines result line).mp hline
    obtain ⟨t, hshape⟩ := graphEdgeLine_shape kv.1 dst _
    rw [← heq, hshape]
    exact dotDecl_edgeLine _ _ _
  have h4 : (agEdgeLines result).filterMap dotDecl = [] := by
    rw [List.filterMap_eq_nil_iff]
    intro line hline
    obtain ⟨kv, _, e, _, heq⟩ := (mem_agEdgeLines result line).mp hline
    obtain ⟨t, hshape⟩ := agEdgeLine_shape kv.1 e line heq
    rw [hshape]
    exact dotDecl_edgeLine _ _ _
  have h5 : (["\x7d"] : List String).filterMap dotDecl = [] := rfl
  rw [h1, h2, h3, h4, h5]
  simp

/-- **C9.**  In the DOT output, the ids declared by node-declaration lines
are exactly the node set (in order), that set has no duplicates, and every
id occurring as the source or target of an edge line is in it — hence has
exactly one declaration line.  Ids are compared after undoing the shared
`esc` escaping of quotes and backslashes, which both declaration and edge
lines apply identically. -/
theorem C9_dot_declarations (result : CrawlResult) :
    toDot result = String.intercalate "\n" (toDotLines result) ∧
    (toDotLines result).filterMap dotDecl = dotNodes result ∧
    (dotNodes result).Nodup ∧
    ∀ line ∈ toDotLines result, ∀ src dst, dotEdge line = some (src, dst) →
      src ∈ dotNodes result ∧ dst ∈ dotNodes result ∧
      ((toDotLines result).filterMap dotDecl).count src = 1 ∧
      ((toDotLines result).filterMap dotDecl).count dst = 1 := by
  refine ⟨rfl, toDot_filterMap_decl result, dotNodes_nodup result, ?_⟩
  intro line hline src dst hedge
  have hmem : src ∈ dotNodes result ∧ dst ∈ dotNodes result := by
    rw [toDotLines] at hline
    rcases List.mem_append.mp hline with h | h
    · rcases List.mem_append.mp h with h | h
      · rcases List.mem_append.mp h with h | h
        · rcases List.mem_append.mp h with h | h
          · rw [List.mem_cons, List.mem_cons, List.mem_cons] at h
            rcases h with rfl | rfl | rfl | h
            · have : dotEdge "digraph G \x7b" = none := rfl
              rw [this] at hedge
              cases hedge
            · have : dotEdge "  rankdir=LR;" = none := rfl
              rw [this] at hedge
              cases hedge
            · have : dotEdge
                  "  node [shape=box, style=rounded, fontsize=10];" = none :=
                rfl
              rw [this] at hedge
              cases hedge
            · cases h
          · obtain ⟨n, _, heq⟩ := List.mem_map.mp h
            rw [← heq, dotEdge_declLine] at hedge
            cases hedge
        · obtain ⟨kv, hkv, d, hd, heq⟩ := (mem_graphEdgeLines result line).mp h
          obtain ⟨t, hshape⟩ := graphEdgeLine_shape kv.1 d _
          rw [← heq, hshape, dotEdge_edgeLine] at hedge
          rw [Option.some_inj, Prod.mk.injEq] at hedge
          rw [← hedge.1, ← hedge.2]
          exact ⟨dotNodes_graph_key result kv hkv,
                 dotNodes_graph_target result kv hkv d (mem_dedup hd)⟩
      · obtain ⟨kv, hkv, e, he, heq⟩ := (mem_agEdgeLines result line).mp h
        obtain ⟨t, hshape⟩ := agEdgeLine_shape kv.1 e line heq
        rw [hshape, dotEdge_edgeLine] at hedge
        rw [Option.some_inj, Prod.mk.injEq] at hedge
        rw [← hedge.1, ← hedge.2]
        exact ⟨dotNodes_ag_key result kv hkv,
               dotNodes_ag_target result kv hkv e he⟩
    · rw [List.mem_cons] at h
      rcases h with rfl | h
      · have : dotEdge "\x7d" = none := rfl
        rw [this] at hedge
        cases hedge
      · cases h
  refine ⟨hmem.1, hmem.2, ?_, ?_⟩
  · rw [toDot_filterMap_decl result]
    exact List.count_eq_one_of_mem (dotNodes_nodup result) hmem.1
  · rw [toDot_filterMap_decl result]
    exact List.count_eq_one_of_mem (dotNodes_nodup result) hmem.2

def res9 : CrawlResult :=
  { pages := [],
    graph := [("https://a.com/", ["https://a.com/docs"])],
    actionGraph := [("https://a.com/",
      [{ «to» := "https://a.com/docs", label := "Docs",
         type := EdgeType.navigate }])] }

theorem C9_witness :
    "https://a.com/" ∈ dotNodes res9 ∧
    "https://a.com/docs" ∈ dotNodes res9 ∧
    ((toDotLines res9).filterMap dotDecl).count "https://a.com/" = 1 ∧
    ((toDotLines res9).filterMap dotDecl).count "https://a.com/docs" = 1 := by
  have h := (C9_dot_declarations res9).2.2.2
    (edgePrefix "https://a.com/" "https://a.com/docs" ++ " [label=\"Docs\"];")
    (by decide) "https://a.com/" "https://a.com/docs" (by decide)
  exact ⟨h.1, h.2.1, h.2.2.1, h.2.2.2⟩

/-! ## Remaining witnesses -/

def W5 : VisitOracle := fun url =>
  if url = "https://a.com/" then some { currentUrl := "https://a.com/" }
  else none

def opts5 : CrawlOptions := { seeds := ["https://a.com"] }

theorem C5_witness :
    (crawl W5 opts5).pages.length ≤ 50 ∧
    ({ url := "https://a.com/", title := "", depth := 0,
       actions := [] } : PageVisit).depth ≤ 1 :=
  ⟨(C5_budgets W5 opts5).1,
   (C5_budgets W5 opts5).2
     { url := "https://a.com/", title := "", depth := 0, actions := [] }
     (by decide)⟩

def st7 : CrawlState := ⟨[], [], [], []⟩

def in7 : Frontier :=
  { url := "https://a.com/", depth := 0, origin := some "https://a.com" }

def a7 : Action := { type := ActionType.click, label := "Menu" }

def tr7 : Transition := { triggerLabel := "Menu", added := ["X"] }

def res7 : VisitRes :=
  { normalized := "https://a.com/", title := "", actions := [a7],
    transitions := [tr7] }

theorem C7_witness :
    (∃ prior, recordGet (mergeVisit true 1 st7 [] in7 res7).1.actionGraph
        res7.normalized =
      some (prior ++ (buildPage true in7.origin (res7.normalized :: st7.visited)
        st7.actionGraph res7.normalized res7.actions
        res7.transitions).filteredEdges)) ∧
    trEdgeOf res7.normalized tr7 ∈
      (buildPage true in7.origin (res7.normalized :: st7.visited)
        st7.actionGraph res7.normalized res7.actions
        res7.transitions).filteredEdges ∧
    selfEdgeOf res7.normalized a7 ∉
      (buildPage true in7.origin (res7.normalized :: st7.visited)
        st7.actionGraph res7.normalized res7.actions
        res7.transitions).filteredEdges :=
  ⟨(C7_selfloop_suppressed true 1 st7 [] in7 res7 (by decide)).1,
   (C7_selfloop_suppressed true 1 st7 [] in7 res7 (by decide)).2.1
     (trEdgeOf res7.normalized tr7) (Or.inr (by decide)) (Or.inr (by decide)),
   (C7_selfloop_suppressed true 1 st7 [] in7 res7 (by decide)).2.2
     (selfEdgeOf res7.normalized a7) (Or.inl (by decide)) (Or.inl (by decide))
     (by decide)⟩

def st10 : CrawlState := ⟨["https://a.com/old"], [], [], []⟩

def in10 : Frontier :=
  { url := "https://a.com/", depth := 0, origin := some "https://a.com" }

def a10a : Action :=
  { type := ActionType.navigate, label := "Old", href := some "/old" }

def a10b : Action :=
  { type := ActionType.navigate, label := "New", href := some "/new" }

def res10 : VisitRes :=
  { normalized := "https://a.com/", title := "", actions := [a10a, a10b],
    transitions := [] }

theorem C10_witness :
    recordGet (mergeVisit true 1 st10 [] in10 res10).1.graph res10.normalized =
      some (buildPage true in10.origin (res10.normalized :: st10.visited)
        st10.actionGraph res10.normalized res10.actions
        res10.transitions).nextUrls ∧
    ("https://a.com/new" ∉ (res10.normalized :: st10.visited) ∧
      originOk true (some "https://a.com") "https://a.com/new" = true ∧
      ∃ a ∈ res10.actions, a.type = ActionType.navigate ∧ ∃ abs,
        resolveHref res10.normalized a.href = some abs ∧
          "https://a.com/new" = normalizeUrl abs) ∧
    (navEdgeOf a10a (normalizeUrl "https://a.com/old") ∈
      (buildPage true in10.origin (res10.normalized :: st10.visited)
        st10.actionGraph res10.normalized res10.actions
        res10.transitions).filteredEdges ∧
     normalizeUrl "https://a.com/old" ∉
      (buildPage true in10.origin (res10.normalized :: st10.visited)
        st10.actionGraph res10.normalized res10.actions
        res10.transitions).nextUrls) :=
  ⟨(C10_graph_unvisited_only true 1 st10 [] in10 res10 "https://a.com"
      (by decide) rfl rfl).1,
   (C10_graph_unvisited_only true 1 st10 [] in10 res10 "https://a.com"
      (by decide) rfl rfl).2.1 "https://a.com/new" (by decide),
   (C10_graph_unvisited_only true 1 st10 [] in10 res10 "https://a.com"
      (by decide) rfl rfl).2.2 a10a (by decide) (by decide) "https://a.com/old"
     (by decide) (by decide) (by decide)⟩

end Crawler
